import Mathlib

set_option linter.unusedVariables false

/-!
Shallow embedding of the hybrid retrieval engine of `scripts/rag.py` in its
zero-dependency configuration: the `SimpleEmbedder` TF-IDF embedder, the
`FAISSVectorStore` in its brute-force fallback branch (`_use_faiss = False`,
the optional faiss / numpy / sentence-transformers packages being external
dependencies, not part of the repository), and the `HybridSearchEngine`.

Machine floats are modelled by exact rationals.  The two transcendental
library calls, `math.log` and `math.sqrt`, are explicit function parameters
`log sqrt : ℚ → ℚ` of every definition that uses them; theorems assume of
them only the properties each claim actually needs (all of which hold for
the real logarithm and square root).  Python's `round(x, 4)` is modelled as
exact rounding to the nearest multiple of `1/10000`; no claim depends on the
tie direction or on binary-float representation noise.  Python `dict` /
`collections.Counter` values are modelled as insertion-ordered association
lists, mirroring the guaranteed dict iteration order.  The `\w` character
class of the tokenizer is modelled over ASCII word characters.
-/

namespace Rag

/-- An ASCII word character, the `\w` class of `re.findall(r"\w+", ...)`. -/
def isWordChar (c : Char) : Bool := c.isAlphanum || c = '_'

/-- Splits an (already lowercased) character list into maximal `\w+` runs;
`acc` holds the current run reversed. -/
def tokenizeAux : List Char → List Char → List (List Char)
  | [], acc => if acc.isEmpty then [] else [acc.reverse]
  | c :: cs, acc =>
    if isWordChar c then tokenizeAux cs (c :: acc)
    else if acc.isEmpty then tokenizeAux cs [] else acc.reverse :: tokenizeAux cs []

/-- `SimpleEmbedder._tokenize` and the inline `re.findall(r"\w+", text.lower())`
uses in `HybridSearchEngine`: lowercase, split into word-character runs. -/
def tokenize (s : String) : List String :=
  (tokenizeAux (s.data.map Char.toLower) []).map List.asString

/-- First-match lookup in an insertion-ordered association list (a Python
`dict` read, or the `token in index` guard plus access). -/
def alistGet? [DecidableEq κ] : List (κ × ν) → κ → Option ν
  | [], _ => none
  | p :: l, k => if p.1 = k then some p.2 else alistGet? l k

/-- Python `dict` assignment: overwrite in place when the key is present,
otherwise append at the end (dicts preserve insertion order). -/
def alistUpd [DecidableEq κ] : List (κ × ν) → κ → ν → List (κ × ν)
  | [], k, v => [(k, v)]
  | p :: l, k, v => if p.1 = k then (k, v) :: l else p :: alistUpd l k v

/-- `Counter[k] += d`: add to the entry in place; a missing key starts from
zero and is appended at the end. -/
def counterIncr [DecidableEq κ] : List (κ × ℚ) → κ → ℚ → List (κ × ℚ)
  | [], k, d => [(k, d)]
  | p :: l, k, d => if p.1 = k then (p.1, p.2 + d) :: l else p :: counterIncr l k d

/-- `setdefault(k, []).append(v)` on a `dict` of lists. -/
def alistPush [DecidableEq κ] : List (κ × List ν) → κ → ν → List (κ × List ν)
  | [], k, v => [(k, [v])]
  | p :: l, k, v => if p.1 = k then (p.1, p.2 ++ [v]) :: l else p :: alistPush l k v

/-- The iteration order of a Python `set` / `Counter` built by successive
insertion from a list: the distinct elements in first-occurrence order. -/
def dedupFirst [DecidableEq α] (l : List α) : List α :=
  l.foldl (fun acc a => if a ∈ acc then acc else acc ++ [a]) []

/-- `collections.Counter(l)`: keys in first-occurrence order, values the
multiplicities. -/
def counterNat [DecidableEq α] (l : List α) : List (α × ℕ) :=
  (dedupFirst l).map fun t => (t, l.count t)

/-- Python `round(x, 4)`: exact rounding to the nearest multiple of `1/10000`. -/
def round4 (q : ℚ) : ℚ := (round (q * 10000) : ℤ) / 10000

/-- One step of a stable descending insertion: `a` is placed before the first
element whose key is `≤` its own, so that elements already in the list keep
priority on ties — the behaviour of Python's stable `list.sort(key=...,
reverse=True)`. -/
def insertDesc (key : α → ℚ) (a : α) : List α → List α
  | [] => [a]
  | b :: l => if key b ≤ key a then a :: b :: l else b :: insertDesc key a l

/-- Stable descending sort by `key`, extensionally Python's
`sort(key=..., reverse=True)`. -/
def sortDesc (key : α → ℚ) : List α → List α
  | [] => []
  | a :: l => insertDesc key a (sortDesc key l)

/-- A corpus document: the `"id"` entry (`doc.get("id", i)` falls back to the
integer position when absent) and the `"content"` entry.  Other metadata only
passes through the engine unchanged and is omitted. -/
structure Doc where
  id : Option String
  content : String
deriving DecidableEq, Repr

/-- Placeholder for out-of-range indexing (never reached on the paths the
theorems traverse). -/
def defaultDoc : Doc := ⟨none, ""⟩

/-- Failure kinds.  The source only ever raises Python `AttributeError`s (for
the never-assigned `_vectors` / `_inverted_index` attributes); the spec's
named error values are additional constructors so that the error-taxonomy
claims can be stated, and the code model never produces them. -/
inductive Err where
  | attributeError : String → Err
  | indexNotBuilt : Err
  | emptyCorpus : Err
  | dimensionMismatch : Err
deriving DecidableEq, Repr

/-- `SimpleEmbedder` state: the vocabulary in index-assignment order (the
list position is `self.vocab[w]`), the IDF table, and the `fitted` flag. -/
structure SimpleEmbedder where
  vocab : List String
  idf : List (String × ℚ)
  fitted : Bool
deriving Repr

/-- `SimpleEmbedder.fit`: document frequency of a term is the number of
documents containing it at least once (the per-document `set(tokens)` loop,
keys in first-appearance order), smoothed IDF `log((n+1)/(df+1)) + 1`,
vocabulary indices assigned by enumerating `self.idf`. -/
def SimpleEmbedder.fit (log : ℚ → ℚ) (documents : List String) : SimpleEmbedder :=
  let tokenSets := documents.map fun d => dedupFirst (tokenize d)
  let docFreq : List (String × ℕ) :=
    (dedupFirst tokenSets.flatten).map fun w => (w, tokenSets.countP fun s => decide (w ∈ s))
  let n := documents.length
  let idf := docFreq.map fun p => (p.1, log (((n : ℚ) + 1) / ((p.2 : ℚ) + 1)) + 1)
  { vocab := idf.map Prod.fst, idf := idf, fitted := true }

/-- Position lookup in the vocabulary (`self.vocab[token]` together with the
`token in self.vocab` guard). -/
def idxOf? [DecidableEq α] : List α → α → Option ℕ
  | [], _ => none
  | b :: l, a => if b = a then some 0 else (idxOf? l a).map (· + 1)

/-- Sum of squares of a vector. -/
def sumSq (v : List ℚ) : ℚ := (v.map fun x => x * x).sum

/-- One iteration of the `for token, count in tf.items()` loop of `encode`:
`if token in self.vocab: vec[self.vocab[token]] = (count / len(tokens)) *
self.idf.get(token, 1.0)`. -/
def vecWrite (e : SimpleEmbedder) (len : ℕ) (vec : List ℚ) (tc : String × ℕ) : List ℚ :=
  match idxOf? e.vocab tc.1 with
  | some i => vec.set i (((tc.2 : ℚ) / (len : ℚ)) * ((alistGet? e.idf tc.1).getD 1))
  | none => vec

/-- The un-normalized TF-IDF vector of one text: a zero vector of the
vocabulary size, with `(count / len(tokens)) * self.idf.get(token, 1.0)`
written at each in-vocabulary token's index. -/
def SimpleEmbedder.rawVec (e : SimpleEmbedder) (tokens : List String) : List ℚ :=
  (counterNat tokens).foldl (vecWrite e tokens.length) (List.replicate e.vocab.length 0)

theorem vecWrite_some {e : SimpleEmbedder} {t : String} {i : ℕ}
    (h : idxOf? e.vocab t = some i) (len : ℕ) (vec : List ℚ) (c : ℕ) :
    vecWrite e len vec (t, c)
      = vec.set i (((c : ℚ) / (len : ℚ)) * ((alistGet? e.idf t).getD 1)) := by
  simp only [vecWrite, h]

theorem vecWrite_none {e : SimpleEmbedder} {t : String}
    (h : idxOf? e.vocab t = none) (len : ℕ) (vec : List ℚ) (c : ℕ) :
    vecWrite e len vec (t, c) = vec := by
  simp only [vecWrite, h]

theorem length_vecWrite (e : SimpleEmbedder) (len : ℕ) (vec : List ℚ) (tc : String × ℕ) :
    (vecWrite e len vec tc).length = vec.length := by
  unfold vecWrite
  cases idxOf? e.vocab tc.1 <;> simp

/-- The normalization step of `encode`: `norm = sqrt(sum(v*v)) or 1.0`, then
divide every component (a zero norm therefore leaves the vector unchanged). -/
def l2normalize (sqrt : ℚ → ℚ) (vec : List ℚ) : List ℚ :=
  let norm := sqrt (sumSq vec)
  let norm := if norm = 0 then 1 else norm
  vec.map (· / norm)

/-- `SimpleEmbedder.encode` restricted to one text of an already-fitted
embedder. -/
def SimpleEmbedder.encodeOne (sqrt : ℚ → ℚ) (e : SimpleEmbedder) (text : String) : List ℚ :=
  l2normalize sqrt (e.rawVec (tokenize text))

/-- `SimpleEmbedder.encode`: lazily fits on the given texts when not yet
fitted, then encodes each text; returns the possibly-updated embedder. -/
def SimpleEmbedder.encode (log sqrt : ℚ → ℚ) (e : SimpleEmbedder) (texts : List String) :
    SimpleEmbedder × List (List ℚ) :=
  let e := if e.fitted then e else SimpleEmbedder.fit log texts
  (e, texts.map (e.encodeOne sqrt))

/-- `FAISSVectorStore` in the dependency-free configuration: embedder,
documents, and the `_vectors` attribute, with `none` modelling the attribute
never having been assigned (reading it then raises `AttributeError`). -/
structure FAISSVectorStore where
  embedder : SimpleEmbedder
  documents : List Doc
  vectors : Option (List (List ℚ))
deriving Repr

/-- `FAISSVectorStore.__init__` with the default `SimpleEmbedder`. -/
def FAISSVectorStore.init : FAISSVectorStore :=
  { embedder := { vocab := [], idf := [], fitted := false }, documents := [], vectors := none }

/-- `FAISSVectorStore.add_documents` (brute-force branch): store the
documents, fit the embedder on their contents, encode and store the vectors. -/
def FAISSVectorStore.addDocuments (log sqrt : ℚ → ℚ) (st : FAISSVectorStore)
    (documents : List Doc) : FAISSVectorStore :=
  let texts := documents.map (·.content)
  let e := SimpleEmbedder.fit log texts
  { embedder := e, documents := documents, vectors := some (texts.map (e.encodeOne sqrt)) }

/-- `sum(a * b for a, b in zip(query_vec, doc_vec))`. -/
def dot (u v : List ℚ) : ℚ := (List.zipWith (· * ·) u v).sum

/-- `_brute_force_search`: score every stored vector, stable-sort the
`(score, index)` pairs descending by score, truncate to `top_k`, round the
reported scores to 4 places. -/
def bruteForceSearch (documents : List Doc) (vectors : List (List ℚ))
    (queryVec : List ℚ) (topK : ℕ) : List (Doc × ℚ) :=
  let scores := vectors.enum.map fun p => (dot queryVec p.2, p.1)
  let sorted := sortDesc (fun p => p.1) scores
  (sorted.take topK).map fun p => (documents.getD p.2 defaultDoc, round4 p.1)

/-- The query vector `search` computes: `encode([query])[0]`, which lazily
fits a never-fitted embedder on the query alone. -/
def FAISSVectorStore.queryVec (log sqrt : ℚ → ℚ) (st : FAISSVectorStore)
    (query : String) : List ℚ :=
  (if st.embedder.fitted then st.embedder else SimpleEmbedder.fit log [query]).encodeOne sqrt query

/-- `FAISSVectorStore.search` (brute-force branch): encode the query, then
read `self._vectors` — an `AttributeError` when it was never assigned — and
run the brute-force search. -/
def FAISSVectorStore.search (log sqrt : ℚ → ℚ) (st : FAISSVectorStore) (query : String)
    (topK : ℕ) : Except Err (List (Doc × ℚ)) :=
  let qvec := st.queryVec log sqrt query
  match st.vectors with
  | none => Except.error (Err.attributeError "_vectors")
  | some vectors => Except.ok (bruteForceSearch st.documents vectors qvec topK)

/-- `HybridSearchEngine` state; `invertedIndex = none` models the
`_inverted_index` attribute never having been assigned. -/
structure HybridSearchEngine where
  semanticWeight : ℚ
  vectorStore : FAISSVectorStore
  documents : List Doc
  invertedIndex : Option (List (String × List ℕ))
deriving Repr

/-- `HybridSearchEngine.__init__(semantic_weight)`. -/
def HybridSearchEngine.init (semanticWeight : ℚ) : HybridSearchEngine :=
  { semanticWeight := semanticWeight, vectorStore := FAISSVectorStore.init,
    documents := [], invertedIndex := none }

/-- `self.keyword_weight = 1.0 - semantic_weight`. -/
def HybridSearchEngine.keywordWeight (eng : HybridSearchEngine) : ℚ := 1 - eng.semanticWeight

/-- The inverted keyword index: for each document position `i` in order, each
distinct token of the document appends `i` to its posting list. -/
def buildInvertedIndex (documents : List Doc) : List (String × List ℕ) :=
  documents.enum.foldl
    (fun inv p =>
      (dedupFirst (tokenize p.2.content)).foldl (fun inv t => alistPush inv t p.1) inv)
    []

/-- `HybridSearchEngine.add_documents`: store the documents, rebuild the
vector store, rebuild the inverted index. -/
def HybridSearchEngine.addDocuments (log sqrt : ℚ → ℚ) (eng : HybridSearchEngine)
    (documents : List Doc) : HybridSearchEngine :=
  { eng with documents := documents,
             vectorStore := eng.vectorStore.addDocuments log sqrt documents,
             invertedIndex := some (buildInvertedIndex documents) }

/-- The body of the accumulation loop of `_keyword_search` for one query
token: when the token is in the inverted index, compute the smoothed IDF from
the posting-list length and add it to every document of the posting list. -/
def keywordStep (log : ℚ → ℚ) (n : ℕ) (inv : List (String × List ℕ))
    (scores : List (ℕ × ℚ)) (t : String) : List (ℕ × ℚ) :=
  match alistGet? inv t with
  | none => scores
  | some matching =>
    let idf := log (((n : ℚ) + 1) / ((matching.length : ℚ) + 1)) + 1
    matching.foldl (fun scores d => counterIncr scores d idf) scores

/-- The accumulation loop of `_keyword_search` over all query tokens
(repeated tokens accumulate again). -/
def keywordAccum (log : ℚ → ℚ) (n : ℕ) (inv : List (String × List ℕ))
    (queryTokens : List String) : List (ℕ × ℚ) :=
  queryTokens.foldl (keywordStep log n inv) []

/-- `max(scores.values())` of a nonempty score table (0 on the empty table,
which the caller never passes). -/
def maxVal : List (ℕ × ℚ) → ℚ
  | [] => 0
  | p :: l => l.foldl (fun m q => max m q.2) p.2

/-- `_keyword_search`: accumulate, then divide every accumulated score by the
maximum one; the empty mapping when no query token matched. -/
def keywordSearch (log : ℚ → ℚ) (n : ℕ) (inv : List (String × List ℕ))
    (query : String) : List (ℕ × ℚ) :=
  let scores := keywordAccum log n inv (tokenize query)
  match scores with
  | [] => []
  | _ :: _ =>
    let m := maxVal scores
    scores.map fun p => (p.1, p.2 / m)

/-- One entry of the `merged` dict of `search`. -/
structure MergedEntry where
  document : Doc
  semanticScore : ℚ
  keywordScore : ℚ
deriving DecidableEq, Repr

/-- Merge keys: Python's `doc.get("id", i)` yields either the integer default
or the string id, and `int` and `str` keys never collide in a dict. -/
abbrev DocKey := ℕ ⊕ String

/-- `document.get("id", i)`. -/
def docKey (d : Doc) (i : ℕ) : DocKey :=
  match d.id with
  | some s => Sum.inr s
  | none => Sum.inl i

/-- The first merge loop of `search`: semantic results keyed by
`result["document"].get("id", i)` with `i` the enumeration index. -/
def mergeSemantic (semanticResults : List (Doc × ℚ)) : List (DocKey × MergedEntry) :=
  semanticResults.enum.foldl
    (fun merged p => alistUpd merged (docKey p.2.1 p.1) ⟨p.2.1, p.2.2, 0⟩)
    []

/-- One iteration of the second merge loop of `search`, for one
`(doc_idx, score)` keyword entry: key by
`self.documents[doc_idx].get("id", doc_idx)`, set the keyword component of an
existing entry in place, or insert a semantically-unseen entry with semantic
score 0. -/
def mergeKeywordStep (documents : List Doc) (merged : List (DocKey × MergedEntry))
    (p : ℕ × ℚ) : List (DocKey × MergedEntry) :=
  let d := documents.getD p.1 defaultDoc
  let key := docKey d p.1
  match alistGet? merged key with
  | some entry => alistUpd merged key { entry with keywordScore := p.2 }
  | none => alistUpd merged key ⟨d, 0, p.2⟩

/-- The second merge loop of `search` over all keyword entries. -/
def mergeKeyword (documents : List Doc) (merged : List (DocKey × MergedEntry))
    (keywordScores : List (ℕ × ℚ)) : List (DocKey × MergedEntry) :=
  keywordScores.foldl (mergeKeywordStep documents) merged

/-- One returned result dict of `search`. -/
structure SearchResult where
  document : Doc
  relevanceScore : ℚ
  semanticScore : ℚ
  keywordScore : ℚ
deriving DecidableEq, Repr

/-- Fusion of one merged entry: `combined = semantic_weight * semantic_score
+ keyword_weight * keyword_score`, all three reported scores rounded to 4
places. -/
def fuseEntry (w : ℚ) (e : MergedEntry) : SearchResult :=
  let combined := w * e.semanticScore + (1 - w) * e.keywordScore
  ⟨e.document, round4 combined, round4 e.semanticScore, round4 e.keywordScore⟩

/-- `HybridSearchEngine.search`: semantic search over-fetching `top_k * 2`,
keyword scoring, merge, fuse, stable sort by rounded fused score descending,
truncate to `top_k`.  Exceptions from the stages propagate. -/
def HybridSearchEngine.search (log sqrt : ℚ → ℚ) (eng : HybridSearchEngine)
    (query : String) (topK : ℕ) : Except Err (List SearchResult) :=
  match eng.vectorStore.search log sqrt query (topK * 2) with
  | Except.error e => Except.error e
  | Except.ok semanticResults =>
    match eng.invertedIndex with
    | none => Except.error (Err.attributeError "_inverted_index")
    | some inv =>
      let keywordScores := keywordSearch log eng.documents.length inv query
      let merged := mergeKeyword eng.documents (mergeSemantic semanticResults) keywordScores
      let results := sortDesc (fun r => r.relevanceScore)
        (merged.map fun p => fuseEntry eng.semanticWeight p.2)
      Except.ok (results.take topK)

/-- The engine state after indexing a corpus: `HybridSearchEngine(w)` followed
by one successful `add_documents(docs)` (re-indexing an already indexed engine
yields the same state, so this covers every indexed state of weight `w`). -/
def indexedEngine (log sqrt : ℚ → ℚ) (w : ℚ) (docs : List Doc) : HybridSearchEngine :=
  (HybridSearchEngine.init w).addDocuments log sqrt docs

/-- The embedder fitted on a corpus's contents. -/
def corpusEmbedder (log : ℚ → ℚ) (docs : List Doc) : SimpleEmbedder :=
  SimpleEmbedder.fit log (docs.map (·.content))

/-- The stored document vectors of an indexed corpus. -/
def corpusVectors (log sqrt : ℚ → ℚ) (docs : List Doc) : List (List ℚ) :=
  (docs.map (·.content)).map ((corpusEmbedder log docs).encodeOne sqrt)

/-- The semantic candidates `search` fetches for a query: the brute-force
vector search with `top_k * 2`. -/
def hybridSemanticResults (log sqrt : ℚ → ℚ) (docs : List Doc) (query : String)
    (topK : ℕ) : List (Doc × ℚ) :=
  bruteForceSearch docs (corpusVectors log sqrt docs)
    ((corpusEmbedder log docs).encodeOne sqrt query) (topK * 2)

/-- The keyword scores of a query against an indexed corpus. -/
def hybridKeywordScores (log : ℚ → ℚ) (docs : List Doc) (query : String) : List (ℕ × ℚ) :=
  keywordSearch log docs.length (buildInvertedIndex docs) query

/-- The merged association list `search` builds on an indexed engine. -/
def hybridMerged (log sqrt : ℚ → ℚ) (docs : List Doc) (query : String) (topK : ℕ) :
    List (DocKey × MergedEntry) :=
  mergeKeyword docs (mergeSemantic (hybridSemanticResults log sqrt docs query topK))
    (hybridKeywordScores log docs query)

/-- The fused, sorted, truncated result list of `search` on an indexed engine. -/
def hybridResults (log sqrt : ℚ → ℚ) (w : ℚ) (docs : List Doc) (query : String)
    (topK : ℕ) : List SearchResult :=
  (sortDesc (fun r => r.relevanceScore)
    ((hybridMerged log sqrt docs query topK).map fun p => fuseEntry w p.2)).take topK

/-- The ranking the spec's words describe for `semantic_weight = 0.0`: the
pure keyword scores, sorted descending with the same stable tie-break
(first-seen order of the keyword mapping), read back as documents.  This
definition follows the SPEC's text, to be compared against the engine's
actual output. -/
def keywordRanking (log : ℚ → ℚ) (docs : List Doc) (query : String) : List Doc :=
  (sortDesc (fun p => p.2) (hybridKeywordScores log docs query)).map
    fun p => docs.getD p.1 defaultDoc

/-- On an indexed engine, `search` always succeeds and returns the fused
pipeline's results. -/
theorem indexedEngine_search (log sqrt : ℚ → ℚ) (w : ℚ) (docs : List Doc)
    (query : String) (topK : ℕ) :
    (indexedEngine log sqrt w docs).search log sqrt query topK =
      Except.ok (hybridResults log sqrt w docs query topK) := rfl

/-! ### Shared concrete instantiations for witnesses and counterexamples

Any function `ℚ → ℚ` may stand in for `math.log` / `math.sqrt` in a concrete
evaluation; witnesses pick ones satisfying the hypotheses the theorems place
on them (all of which hold for the real functions). -/

def zeroLog : ℚ → ℚ := fun _ => 0

def oneSqrt : ℚ → ℚ := fun _ => 1

def idSqrt : ℚ → ℚ := fun x => x

/-- A stand-in for `math.log` that is `0` except at `4/3`, where it is the
small positive value `7/100000` (as the real logarithm, it is nonnegative on
arguments `≥ 1`); it produces exact fused scores that straddle a rounding
boundary while differing by less than `1/10000`. -/
def log9 : ℚ → ℚ := fun x => if x = 4/3 then 7/100000 else 0

/-! ### Basic structural lemmas -/

/-- A fold of in-place `List.set` updates never changes the length. -/
theorem length_rawVec (e : SimpleEmbedder) (ts : List String) :
    (e.rawVec ts).length = e.vocab.length := by
  unfold SimpleEmbedder.rawVec
  have h : ∀ (l : List (String × ℕ)) (vec : List ℚ),
      (l.foldl (vecWrite e ts.length) vec).length = vec.length := by
    intro l
    induction l with
    | nil => intro vec; rfl
    | cons p l ih =>
      intro vec
      rw [List.foldl_cons, ih, length_vecWrite]
  rw [h]
  exact List.length_replicate _ _

theorem length_encodeOne (sqrt : ℚ → ℚ) (e : SimpleEmbedder) (text : String) :
    (e.encodeOne sqrt text).length = e.vocab.length := by
  unfold SimpleEmbedder.encodeOne l2normalize
  rw [List.length_map]
  exact length_rawVec e _

/-- With an empty vocabulary the raw TF-IDF vector is empty. -/
theorem rawVec_of_vocab_nil (e : SimpleEmbedder) (h : e.vocab = []) (ts : List String) :
    e.rawVec ts = [] := by
  unfold SimpleEmbedder.rawVec
  rw [h]
  have hw : ∀ tc : String × ℕ, vecWrite e ts.length [] tc = [] := by
    intro tc
    unfold vecWrite
    cases idxOf? e.vocab tc.1 <;> simp
  have step : ∀ l : List (String × ℕ),
      (l.foldl (vecWrite e ts.length) ([] : List ℚ)) = [] := by
    intro l
    induction l with
    | nil => rfl
    | cons p l ih => rw [List.foldl_cons, hw]; exact ih
  simpa using step (counterNat ts)

/-- An empty inverted index accumulates no keyword scores. -/
theorem keywordAccum_inv_nil (log : ℚ → ℚ) (n : ℕ) (qts : List String) :
    keywordAccum log n [] qts = [] := by
  unfold keywordAccum
  induction qts with
  | nil => rfl
  | cons t ts ih => simpa [alistGet?] using ih

theorem keywordSearch_inv_nil (log : ℚ → ℚ) (n : ℕ) (query : String) :
    keywordSearch log n [] query = [] := by
  unfold keywordSearch
  rw [keywordAccum_inv_nil]

/-! ### Association-list, counter and max lemmas -/

theorem alistGet?_eq_some_mem [DecidableEq κ] {l : List (κ × ν)} {k : κ} {v : ν}
    (h : alistGet? l k = some v) : (k, v) ∈ l := by
  induction l with
  | nil => simp [alistGet?] at h
  | cons p l ih =>
    by_cases hp : p.1 = k
    · simp only [alistGet?, hp, if_pos] at h
      exact List.mem_cons.mpr (Or.inl (Prod.ext hp.symm (Option.some.inj h).symm))
    · simp only [alistGet?, hp, if_neg, not_false_iff] at h
      exact List.mem_cons_of_mem _ (ih h)

theorem mem_alistGet?_of_nodup [DecidableEq κ] {l : List (κ × ν)}
    (h : (l.map Prod.fst).Nodup) {k : κ} {v : ν} (hm : (k, v) ∈ l) :
    alistGet? l k = some v := by
  induction l with
  | nil => simp at hm
  | cons p l ih =>
    simp only [List.map_cons, List.nodup_cons] at h
    rcases List.mem_cons.mp hm with heq | htl
    · simp [alistGet?, ← heq]
    · have hp : p.1 ≠ k := by
        intro hc
        exact h.1 (hc ▸ List.mem_map.mpr ⟨(k, v), htl, rfl⟩)
      simp [alistGet?, hp, ih h.2 htl]

theorem alistGet?_isSome_iff [DecidableEq κ] (l : List (κ × ν)) (k : κ) :
    (alistGet? l k).isSome ↔ k ∈ l.map Prod.fst := by
  induction l with
  | nil => simp [alistGet?]
  | cons p l ih =>
    by_cases hp : p.1 = k
    · simp [alistGet?, hp]
    · simp [alistGet?, hp, ih, Ne.symm hp]

theorem alistGet?_map_div [DecidableEq κ] (l : List (κ × ℚ)) (m : ℚ) (k : κ) :
    alistGet? (l.map fun p => (p.1, p.2 / m)) k = (alistGet? l k).map fun v => v / m := by
  induction l with
  | nil => rfl
  | cons p l ih =>
    by_cases hp : p.1 = k <;> simp [alistGet?, hp, ih]

/-- Value read after one `Counter` increment. -/
theorem alistGet?_counterIncr [DecidableEq κ] (sc : List (κ × ℚ)) (k : κ) (d : ℚ) (x : κ) :
    (alistGet? (counterIncr sc k d) x).getD 0 =
      if x = k then (alistGet? sc x).getD 0 + d else (alistGet? sc x).getD 0 := by
  induction sc with
  | nil =>
    by_cases hx : x = k
    · simp [counterIncr, alistGet?, hx]
    · have hkx : ¬k = x := fun h => hx h.symm
      simp [counterIncr, alistGet?, hx, hkx]
  | cons p l ih =>
    by_cases hpk : p.1 = k
    · by_cases hx : x = k
      · simp [counterIncr, alistGet?, hpk, hx, hpk.trans hx.symm]
      · have hkx : ¬k = x := fun h => hx h.symm
        have hpx : ¬p.1 = x := fun h => hx (h.symm.trans hpk)
        simp [counterIncr, alistGet?, hpk, hkx, hpx, hx]
    · by_cases hpx : p.1 = x
      · have hx : ¬x = k := fun h => hpk (hpx.trans h)
        simp [counterIncr, alistGet?, hpk, hpx, hx]
      · simp [counterIncr, alistGet?, hpk, hpx, ih]

/-- Key list after one `Counter` increment. -/
theorem keys_counterIncr [DecidableEq κ] (sc : List (κ × ℚ)) (k : κ) (d : ℚ) :
    (counterIncr sc k d).map Prod.fst =
      if k ∈ sc.map Prod.fst then sc.map Prod.fst else sc.map Prod.fst ++ [k] := by
  induction sc with
  | nil => simp [counterIncr]
  | cons p l ih =>
    by_cases hpk : p.1 = k
    · simp [counterIncr, hpk]
    · have hkp : ¬k = p.1 := fun h => hpk h.symm
      have hstep : counterIncr (p :: l) k d = p :: counterIncr l k d := by
        simp [counterIncr, hpk]
      rw [hstep]
      simp only [List.map_cons, ih, List.mem_cons]
      by_cases hk : k ∈ l.map Prod.fst <;> simp [hk, hkp]

theorem mem_keys_counterIncr [DecidableEq κ] (sc : List (κ × ℚ)) (k : κ) (d : ℚ) (x : κ) :
    x ∈ (counterIncr sc k d).map Prod.fst ↔ x ∈ sc.map Prod.fst ∨ x = k := by
  rw [keys_counterIncr]
  split_ifs with h
  · constructor
    · exact Or.inl
    · rintro (hx | rfl)
      · exact hx
      · exact h
  · simp

theorem keys_nodup_counterIncr [DecidableEq κ] {sc : List (κ × ℚ)}
    (h : (sc.map Prod.fst).Nodup) (k : κ) (d : ℚ) :
    ((counterIncr sc k d).map Prod.fst).Nodup := by
  rw [keys_counterIncr]
  split_ifs with hk
  · exact h
  · simp [List.nodup_append, h, hk]

/-- Value read after adding `d` to every document of a posting list. -/
theorem alistGet?_foldl_counterIncr [DecidableEq κ] (ps : List κ) (d : ℚ)
    (sc : List (κ × ℚ)) (x : κ) :
    (alistGet? (ps.foldl (fun sc y => counterIncr sc y d) sc) x).getD 0
      = (alistGet? sc x).getD 0 + (ps.count x : ℚ) * d := by
  induction ps generalizing sc with
  | nil => simp
  | cons y ps ih =>
    rw [List.foldl_cons, ih, alistGet?_counterIncr]
    by_cases hx : x = y
    · rw [if_pos hx]
      have hc : (y :: ps).count x = ps.count x + 1 := by simp [List.count_cons, hx]
      rw [hc]
      push_cast
      ring
    · rw [if_neg hx]
      have hc : (y :: ps).count x = ps.count x := by simp [List.count_cons, hx]
      rw [hc]

theorem mem_keys_foldl_counterIncr [DecidableEq κ] (ps : List κ) (d : ℚ)
    (sc : List (κ × ℚ)) (x : κ) :
    x ∈ ((ps.foldl (fun sc y => counterIncr sc y d) sc).map Prod.fst)
      ↔ x ∈ sc.map Prod.fst ∨ x ∈ ps := by
  induction ps generalizing sc with
  | nil => simp
  | cons y ps ih =>
    rw [List.foldl_cons, ih, mem_keys_counterIncr]
    simp only [List.mem_cons]
    tauto

theorem keys_nodup_foldl_counterIncr [DecidableEq κ] (ps : List κ) (d : ℚ)
    {sc : List (κ × ℚ)} (h : (sc.map Prod.fst).Nodup) :
    (((ps.foldl (fun sc y => counterIncr sc y d) sc)).map Prod.fst).Nodup := by
  induction ps generalizing sc with
  | nil => exact h
  | cons y ps ih => exact ih (keys_nodup_counterIncr h y d)

/-- Every value of a score table is bounded by `maxVal`. -/
theorem le_maxVal (l : List (ℕ × ℚ)) (p : ℕ × ℚ) (hp : p ∈ l) : p.2 ≤ maxVal l := by
  have hinit : ∀ (t : List (ℕ × ℚ)) (b : ℚ), b ≤ t.foldl (fun m q => max m q.2) b := by
    intro t
    induction t with
    | nil => intro b; exact le_refl b
    | cons q t ih => intro b; exact le_trans (le_max_left b q.2) (ih (max b q.2))
  have hmem : ∀ (t : List (ℕ × ℚ)) (b : ℚ) (q : ℕ × ℚ), q ∈ t →
      q.2 ≤ t.foldl (fun m q => max m q.2) b := by
    intro t
    induction t with
    | nil => intro b q hq; simp at hq
    | cons r t ih =>
      intro b q hq
      rcases List.mem_cons.mp hq with rfl | hq
      · exact le_trans (le_max_right b q.2) (hinit t (max b q.2))
      · exact ih (max b r.2) q hq
  match l, hp with
  | q :: t, hp =>
    rcases List.mem_cons.mp hp with rfl | hp
    · exact hinit t p.2
    · exact hmem t q.2 p hp

/-- `maxVal` of a nonempty score table is attained by one of its entries. -/
theorem maxVal_mem (l : List (ℕ × ℚ)) (h : l ≠ []) : ∃ p ∈ l, p.2 = maxVal l := by
  have key : ∀ (t : List (ℕ × ℚ)) (b : ℚ),
      t.foldl (fun m q => max m q.2) b = b ∨ ∃ p ∈ t, t.foldl (fun m q => max m q.2) b = p.2 := by
    intro t
    induction t with
    | nil => intro b; exact Or.inl rfl
    | cons q t ih =>
      intro b
      rcases ih (max b q.2) with heq | ⟨p, hp, heq⟩
      · rw [List.foldl_cons, heq]
        rcases max_choice b q.2 with hm | hm
        · exact Or.inl hm
        · exact Or.inr ⟨q, List.mem_cons_self q t, hm⟩
      · exact Or.inr ⟨p, List.mem_cons_of_mem q hp, heq⟩
  match l, h with
  | q :: t, _ =>
    show ∃ p ∈ q :: t, p.2 = t.foldl (fun m q => max m q.2) q.2
    rcases key t q.2 with heq | ⟨p, hp, heq⟩
    · exact ⟨q, List.mem_cons_self q t, heq.symm⟩
    · exact ⟨p, List.mem_cons_of_mem q hp, heq.symm⟩

/-! ### Inverted-index invariants -/

theorem dedupFirst_nodup [DecidableEq α] (l : List α) : (dedupFirst l).Nodup := by
  have h : ∀ (l : List α) (acc : List α), acc.Nodup →
      (l.foldl (fun acc a => if a ∈ acc then acc else acc ++ [a]) acc).Nodup := by
    intro l
    induction l with
    | nil => intro acc h; exact h
    | cons a l ih =>
      intro acc hacc
      rw [List.foldl_cons]
      by_cases ha : a ∈ acc
      · rw [if_pos ha]; exact ih acc hacc
      · rw [if_neg ha]
        exact ih _ (by simp [List.nodup_append, hacc, ha])
  exact h l [] List.nodup_nil

theorem alistGet?_alistPush_self [DecidableEq κ] (inv : List (κ × List ν)) (k : κ) (v : ν) :
    alistGet? (alistPush inv k v) k = some (((alistGet? inv k).getD []) ++ [v]) := by
  induction inv with
  | nil => simp [alistPush, alistGet?]
  | cons p l ih =>
    by_cases hp : p.1 = k
    · simp [alistPush, alistGet?, hp]
    · simp [alistPush, alistGet?, hp, ih]

theorem alistGet?_alistPush_ne [DecidableEq κ] (inv : List (κ × List ν)) (k : κ) (v : ν)
    (t : κ) (h : ¬t = k) : alistGet? (alistPush inv k v) t = alistGet? inv t := by
  induction inv with
  | nil =>
    have hkt : ¬k = t := fun hh => h hh.symm
    simp [alistPush, alistGet?, hkt]
  | cons p l ih =>
    by_cases hp : p.1 = k
    · have hpt : ¬p.1 = t := fun hh => h (hh.symm.trans hp)
      have hkt : ¬k = t := fun hh => h hh.symm
      simp [alistPush, alistGet?, hp, hpt, hkt]
    · simp [alistPush, alistGet?, hp, ih]

/-- Processing one document's distinct tokens: every posting list stays
strictly sorted, and entries are at most the document's position `i`. -/
theorem innerPush_spec (i : ℕ) :
    ∀ (ts : List String) (inv : List (String × List ℕ)),
      ts.Nodup →
      (∀ t ps, alistGet? inv t = some ps →
          List.Pairwise (· < ·) ps ∧ ∀ j ∈ ps, j < i ∨ (j = i ∧ t ∉ ts)) →
      ∀ t ps, alistGet? (ts.foldl (fun inv t => alistPush inv t i) inv) t = some ps →
        List.Pairwise (· < ·) ps ∧ ∀ j ∈ ps, j ≤ i := by
  intro ts
  induction ts with
  | nil =>
    intro inv _ hinv t ps hget
    obtain ⟨hpw, hb⟩ := hinv t ps hget
    refine ⟨hpw, fun j hj => ?_⟩
    rcases hb j hj with h | ⟨rfl, _⟩
    · exact le_of_lt h
    · exact le_refl j
  | cons t0 ts ih =>
    intro inv hnd hinv t ps hget
    rw [List.foldl_cons] at hget
    rw [List.nodup_cons] at hnd
    refine ih (alistPush inv t0 i) hnd.2 ?_ t ps hget
    intro u qs hget'
    by_cases hu : u = t0
    · subst hu
      rw [alistGet?_alistPush_self] at hget'
      have hqs : qs = ((alistGet? inv u).getD []) ++ [i] := (Option.some.inj hget').symm
      subst hqs
      cases hold : alistGet? inv u with
      | none =>
        simp only [hold, Option.getD_none, List.nil_append]
        exact ⟨List.pairwise_singleton _ _,
          fun j hj => Or.inr ⟨List.mem_singleton.mp hj, hnd.1⟩⟩
      | some ps0 =>
        obtain ⟨hpw0, hb0⟩ := hinv u ps0 hold
        have hlt : ∀ j ∈ ps0, j < i := by
          intro j hj
          rcases hb0 j hj with h | ⟨_, habs⟩
          · exact h
          · exact absurd (List.mem_cons_self u ts) habs
        simp only [hold, Option.getD_some]
        constructor
        · rw [List.pairwise_append]
          exact ⟨hpw0, List.pairwise_singleton _ _,
            fun a ha b hb => (List.mem_singleton.mp hb) ▸ hlt a ha⟩
        · intro j hj
          rcases List.mem_append.mp hj with hj | hj
          · exact Or.inl (hlt j hj)
          · exact Or.inr ⟨List.mem_singleton.mp hj, hnd.1⟩
    · rw [alistGet?_alistPush_ne inv t0 i u hu] at hget'
      obtain ⟨hpw, hb⟩ := hinv u qs hget'
      refine ⟨hpw, fun j hj => (hb j hj).imp id ?_⟩
      rintro ⟨rfl, hnm⟩
      exact ⟨rfl, fun hm => hnm (List.mem_cons_of_mem _ hm)⟩

/-- The inverted-index build loop from any starting position keeps posting
lists strictly sorted and bounded by the number of processed documents. -/
theorem outerBuild_spec :
    ∀ (ds : List Doc) (start : ℕ) (inv : List (String × List ℕ)),
      (∀ t ps, alistGet? inv t = some ps →
          List.Pairwise (· < ·) ps ∧ ∀ j ∈ ps, j < start) →
      ∀ t ps, alistGet? ((List.enumFrom start ds).foldl
          (fun inv p => (dedupFirst (tokenize p.2.content)).foldl
            (fun inv t => alistPush inv t p.1) inv) inv) t = some ps →
        List.Pairwise (· < ·) ps ∧ ∀ j ∈ ps, j < start + ds.length := by
  intro ds
  induction ds with
  | nil =>
    intro start inv hinv t ps h
    simpa using hinv t ps h
  | cons d ds ih =>
    intro start inv hinv t ps hget
    rw [List.enumFrom_cons, List.foldl_cons] at hget
    have h1 : ∀ t ps, alistGet? ((dedupFirst (tokenize d.content)).foldl
        (fun inv t => alistPush inv t start) inv) t = some ps →
        List.Pairwise (· < ·) ps ∧ ∀ j ∈ ps, j < start + 1 := by
      intro t ps h
      obtain ⟨hpw, hb⟩ := innerPush_spec start (dedupFirst (tokenize d.content)) inv
        (dedupFirst_nodup _)
        (fun t ps hg => (hinv t ps hg).imp id fun hb j hj => Or.inl (hb j hj))
        t ps h
      exact ⟨hpw, fun j hj => Nat.lt_succ_of_le (hb j hj)⟩
    have hres := ih (start + 1) _ h1 t ps hget
    refine ⟨hres.1, fun j hj => ?_⟩
    have := hres.2 j hj
    simp only [List.length_cons]
    omega

/-- Every posting list is strictly increasing and contains only valid
document positions. -/
theorem buildInvertedIndex_spec (docs : List Doc) (t : String) (ps : List ℕ)
    (h : alistGet? (buildInvertedIndex docs) t = some ps) :
    List.Pairwise (· < ·) ps ∧ ∀ j ∈ ps, j < docs.length := by
  have h0 : ∀ (t : String) (ps : List ℕ),
      alistGet? ([] : List (String × List ℕ)) t = some ps →
      List.Pairwise (· < ·) ps ∧ ∀ j ∈ ps, j < 0 := by
    intro _ _ hc
    simp [alistGet?] at hc
  have := outerBuild_spec docs 0 [] h0 t ps h
  simpa using this

/-- Posting lists never exceed the corpus size. -/
theorem posting_length_le (docs : List Doc) (t : String) (ps : List ℕ)
    (h : alistGet? (buildInvertedIndex docs) t = some ps) :
    ps.length ≤ docs.length := by
  obtain ⟨hpw, hb⟩ := buildInvertedIndex_spec docs t ps h
  have hnd : ps.Nodup := hpw.imp fun h => ne_of_lt h
  calc ps.length = ps.toFinset.card := (List.toFinset_card_of_nodup hnd).symm
    _ ≤ (Finset.range docs.length).card := Finset.card_le_card fun x hx => by
        rw [List.mem_toFinset] at hx
        exact Finset.mem_range.mpr (hb x hx)
    _ = docs.length := Finset.card_range _

/-! ### Keyword-accumulation lemmas -/

/-- The contribution of one query-token occurrence to document `x`: the
token's smoothed IDF if the token is indexed and `x` is in its posting list,
0 otherwise (via the multiplicity of `x` in the posting list). -/
def tokenContrib (log : ℚ → ℚ) (n : ℕ) (inv : List (String × List ℕ)) (x : ℕ)
    (t : String) : ℚ :=
  match alistGet? inv t with
  | none => 0
  | some matching =>
    (matching.count x : ℚ) * (log (((n : ℚ) + 1) / ((matching.length : ℚ) + 1)) + 1)

theorem alistGet?_keywordStep (log : ℚ → ℚ) (n : ℕ) (inv : List (String × List ℕ))
    (sc : List (ℕ × ℚ)) (t : String) (x : ℕ) :
    (alistGet? (keywordStep log n inv sc t) x).getD 0
      = (alistGet? sc x).getD 0 + tokenContrib log n inv x t := by
  unfold keywordStep tokenContrib
  cases h : alistGet? inv t with
  | none => simp
  | some ps => simpa using alistGet?_foldl_counterIncr ps _ sc x

/-- The accumulated keyword score of document `x` is the sum of the
contributions of all query-token occurrences. -/
theorem alistGet?_keywordAccum (log : ℚ → ℚ) (n : ℕ) (inv : List (String × List ℕ))
    (qts : List String) (x : ℕ) :
    (alistGet? (keywordAccum log n inv qts) x).getD 0
      = (qts.map (tokenContrib log n inv x)).sum := by
  have key : ∀ (qts : List String) (sc : List (ℕ × ℚ)),
      (alistGet? (qts.foldl (keywordStep log n inv) sc) x).getD 0
        = (alistGet? sc x).getD 0 + (qts.map (tokenContrib log n inv x)).sum := by
    intro qts
    induction qts with
    | nil => intro sc; simp
    | cons t ts ih =>
      intro sc
      rw [List.foldl_cons, ih, alistGet?_keywordStep, List.map_cons, List.sum_cons]
      ring
  simpa [keywordAccum, alistGet?] using key qts []

theorem mem_keys_keywordStep (log : ℚ → ℚ) (n : ℕ) (inv : List (String × List ℕ))
    (sc : List (ℕ × ℚ)) (t : String) (x : ℕ) :
    x ∈ (keywordStep log n inv sc t).map Prod.fst
      ↔ x ∈ sc.map Prod.fst ∨ ∃ ps, alistGet? inv t = some ps ∧ x ∈ ps := by
  unfold keywordStep
  cases h : alistGet? inv t with
  | none => simp [h]
  | some ps =>
    rw [mem_keys_foldl_counterIncr]
    simp [h]

theorem mem_keys_keywordAccum (log : ℚ → ℚ) (n : ℕ) (inv : List (String × List ℕ))
    (qts : List String) (x : ℕ) :
    x ∈ (keywordAccum log n inv qts).map Prod.fst
      ↔ ∃ t ∈ qts, ∃ ps, alistGet? inv t = some ps ∧ x ∈ ps := by
  have key : ∀ (qts : List String) (sc : List (ℕ × ℚ)),
      x ∈ ((qts.foldl (keywordStep log n inv) sc).map Prod.fst)
        ↔ x ∈ sc.map Prod.fst ∨ ∃ t ∈ qts, ∃ ps, alistGet? inv t = some ps ∧ x ∈ ps := by
    intro qts
    induction qts with
    | nil => intro sc; simp
    | cons t ts ih =>
      intro sc
      rw [List.foldl_cons, ih, mem_keys_keywordStep]
      simp only [List.mem_cons]
      constructor
      · rintro (⟨h | ⟨ps, hps, hx⟩⟩ | ⟨u, hu, hex⟩)
        · exact Or.inl h
        · exact Or.inr ⟨t, Or.inl rfl, ps, hps, hx⟩
        · exact Or.inr ⟨u, Or.inr hu, hex⟩
      · rintro (h | ⟨u, hu | hu, hex⟩)
        · exact Or.inl (Or.inl h)
        · exact Or.inl (Or.inr (hu ▸ hex))
        · exact Or.inr ⟨u, hu, hex⟩
  simpa [keywordAccum] using key qts []

theorem keys_nodup_keywordStep (log : ℚ → ℚ) (n : ℕ) (inv : List (String × List ℕ))
    {sc : List (ℕ × ℚ)} (h : (sc.map Prod.fst).Nodup) (t : String) :
    ((keywordStep log n inv sc t).map Prod.fst).Nodup := by
  unfold keywordStep
  cases alistGet? inv t with
  | none => exact h
  | some ps => exact keys_nodup_foldl_counterIncr ps _ h

theorem keys_nodup_keywordAccum (log : ℚ → ℚ) (n : ℕ) (inv : List (String × List ℕ))
    (qts : List String) :
    ((keywordAccum log n inv qts).map Prod.fst).Nodup := by
  have key : ∀ (qts : List String) (sc : List (ℕ × ℚ)), (sc.map Prod.fst).Nodup →
      ((qts.foldl (keywordStep log n inv) sc).map Prod.fst).Nodup := by
    intro qts
    induction qts with
    | nil => intro sc h; exact h
    | cons t ts ih =>
      intro sc h
      rw [List.foldl_cons]
      exact ih _ (keys_nodup_keywordStep log n inv h t)
  exact key qts [] (by simp)

theorem keywordSearch_of_accum_nil (log : ℚ → ℚ) (n : ℕ) (inv : List (String × List ℕ))
    (query : String) (h : keywordAccum log n inv (tokenize query) = []) :
    keywordSearch log n inv query = [] := by
  unfold keywordSearch
  rw [h]

theorem keywordSearch_of_accum_ne (log : ℚ → ℚ) (n : ℕ) (inv : List (String × List ℕ))
    (query : String) (h : keywordAccum log n inv (tokenize query) ≠ []) :
    keywordSearch log n inv query
      = (keywordAccum log n inv (tokenize query)).map
          (fun p => (p.1, p.2 / maxVal (keywordAccum log n inv (tokenize query)))) := by
  unfold keywordSearch
  cases hacc : keywordAccum log n inv (tokenize query) with
  | nil => exact absurd hacc h
  | cons q t => simp [← hacc]

theorem keywordAccum_of_all_none (log : ℚ → ℚ) (n : ℕ) (inv : List (String × List ℕ))
    (qts : List String) (h : ∀ t ∈ qts, alistGet? inv t = none) :
    keywordAccum log n inv qts = [] := by
  have key : ∀ (qts : List String), (∀ t ∈ qts, alistGet? inv t = none) →
      qts.foldl (keywordStep log n inv) [] = [] := by
    intro qts
    induction qts with
    | nil => intro _; rfl
    | cons t ts ih =>
      intro hall
      rw [List.foldl_cons]
      have hstep : keywordStep log n inv [] t = [] := by
        unfold keywordStep
        rw [hall t (List.mem_cons_self t ts)]
      rw [hstep]
      exact ih fun u hu => hall u (List.mem_cons_of_mem t hu)
  exact key qts h

/-- The smoothed IDF is at least 1 whenever the posting count is at most the
corpus size (true of every real posting list) and `log` is nonnegative on
arguments at least 1 (true of the real logarithm). -/
theorem one_le_idf (log : ℚ → ℚ) (hlog : ∀ x : ℚ, 1 ≤ x → 0 ≤ log x)
    {m n : ℕ} (hle : m ≤ n) :
    1 ≤ log (((n : ℚ) + 1) / ((m : ℚ) + 1)) + 1 := by
  have harg : (1 : ℚ) ≤ ((n : ℚ) + 1) / ((m : ℚ) + 1) := by
    rw [le_div_iff (by positivity)]
    have : (m : ℚ) ≤ (n : ℚ) := Nat.cast_le.mpr hle
    linarith
  linarith [hlog _ harg]

theorem tokenContrib_nonneg (log : ℚ → ℚ) (hlog : ∀ x : ℚ, 1 ≤ x → 0 ≤ log x)
    (docs : List Doc) (x : ℕ) (t : String) :
    0 ≤ tokenContrib log docs.length (buildInvertedIndex docs) x t := by
  unfold tokenContrib
  cases h : alistGet? (buildInvertedIndex docs) t with
  | none => exact le_refl 0
  | some ps =>
    have hidf := one_le_idf log hlog (posting_length_le docs t ps h)
    have : (0 : ℚ) ≤ (ps.count x : ℚ) := by positivity
    exact mul_nonneg this (by linarith)

/-- Summing per-token contributions equals summing the smoothed IDF over the
query-token occurrences that are indexed and contain the document. -/
theorem sum_tokenContrib_eq_filter (log : ℚ → ℚ) (docs : List Doc) (x : ℕ)
    (qts : List String) :
    (qts.map (tokenContrib log docs.length (buildInvertedIndex docs) x)).sum
      = ((qts.filter fun t =>
            decide (x ∈ (alistGet? (buildInvertedIndex docs) t).getD [])).map
          fun t => log (((docs.length : ℚ) + 1)
            / ((((alistGet? (buildInvertedIndex docs) t).getD []).length : ℚ) + 1)) + 1).sum := by
  induction qts with
  | nil => rfl
  | cons t ts ih =>
    rw [List.map_cons, List.sum_cons, ih, List.filter_cons]
    by_cases hmem : x ∈ (alistGet? (buildInvertedIndex docs) t).getD []
    · rw [if_pos (by simpa using hmem), List.map_cons, List.sum_cons]
      congr 1
      cases hg : alistGet? (buildInvertedIndex docs) t with
      | none => rw [hg] at hmem; simp at hmem
      | some ps =>
        rw [hg] at hmem
        simp only [Option.getD_some] at hmem
        have hnd : ps.Nodup :=
          ((buildInvertedIndex_spec docs t ps hg).1).imp fun h => ne_of_lt h
        unfold tokenContrib
        simp only [hg, Option.getD_some]
        rw [List.count_eq_one_of_mem hnd hmem]
        simp
    · rw [if_neg (by simpa using hmem)]
      have hz : tokenContrib log docs.length (buildInvertedIndex docs) x t = 0 := by
        unfold tokenContrib
        cases hg : alistGet? (buildInvertedIndex docs) t with
        | none => rfl
        | some ps =>
          rw [hg] at hmem
          simp only [Option.getD_some] at hmem
          simp only [hg]
          rw [List.count_eq_zero_of_not_mem hmem]
          simp
      rw [hz, zero_add]

/-! ### Claim C5 — keyword scoring: formula, normalization, empty result -/

/-- C5: for an indexed corpus of `N` documents, the accumulated keyword score
of a document is the sum, over the query-token occurrences that are in the
inverted index and whose posting list contains the document, of the smoothed
IDF `log((N+1)/(posting_count+1)) + 1` (repeated query tokens accumulate
again); every returned normalized value equals its accumulated score divided
by the maximum accumulated score and lies in `[0, 1]`; and if no query token
matches any indexed token the result is the empty mapping, not an error.
The only assumption on `log` is nonnegativity at arguments `≥ 1`, which holds
for the real logarithm. -/
theorem c5_keyword_scoring (log : ℚ → ℚ) (hlog : ∀ x : ℚ, 1 ≤ x → 0 ≤ log x)
    (docs : List Doc) (query : String) :
    (∀ d w,
        alistGet? (keywordAccum log docs.length (buildInvertedIndex docs) (tokenize query)) d
          = some w →
        w = (((tokenize query).filter fun t =>
                decide (d ∈ (alistGet? (buildInvertedIndex docs) t).getD [])).map
              fun t => log (((docs.length : ℚ) + 1)
                / ((((alistGet? (buildInvertedIndex docs) t).getD []).length : ℚ) + 1)) + 1).sum)
    ∧ (∀ d w, alistGet? (hybridKeywordScores log docs query) d = some w →
        w = (alistGet? (keywordAccum log docs.length (buildInvertedIndex docs)
                (tokenize query)) d).getD 0
              / maxVal (keywordAccum log docs.length (buildInvertedIndex docs) (tokenize query))
          ∧ 0 ≤ w ∧ w ≤ 1)
    ∧ (((tokenize query).all fun t => decide (alistGet? (buildInvertedIndex docs) t = none)) →
        hybridKeywordScores log docs query = []) := by
  have hnonneg : ∀ d,
      0 ≤ (alistGet? (keywordAccum log docs.length (buildInvertedIndex docs)
        (tokenize query)) d).getD 0 := by
    intro d
    rw [alistGet?_keywordAccum]
    refine List.sum_nonneg ?_
    intro y hy
    obtain ⟨t, -, rfl⟩ := List.mem_map.mp hy
    exact tokenContrib_nonneg log hlog docs d t
  refine ⟨?_, ?_, ?_⟩
  · intro d w hw
    have hval := alistGet?_keywordAccum log docs.length (buildInvertedIndex docs)
      (tokenize query) d
    rw [hw, Option.getD_some, sum_tokenContrib_eq_filter] at hval
    exact hval
  · intro d w hw
    have hne : keywordAccum log docs.length (buildInvertedIndex docs) (tokenize query) ≠ [] := by
      intro h0
      rw [show hybridKeywordScores log docs query
            = keywordSearch log docs.length (buildInvertedIndex docs) query from rfl,
          keywordSearch_of_accum_nil _ _ _ _ h0] at hw
      simp [alistGet?] at hw
    rw [show hybridKeywordScores log docs query
          = keywordSearch log docs.length (buildInvertedIndex docs) query from rfl,
        keywordSearch_of_accum_ne _ _ _ _ hne, alistGet?_map_div] at hw
    obtain ⟨v, hv, rfl⟩ := Option.map_eq_some'.mp hw
    have hvmem := alistGet?_eq_some_mem hv
    have hvle := le_maxVal _ _ hvmem
    have hv0 : 0 ≤ v := by
      have := hnonneg d
      rwa [hv, Option.getD_some] at this
    have hm0 : 0 ≤ maxVal (keywordAccum log docs.length (buildInvertedIndex docs)
        (tokenize query)) := le_trans hv0 hvle
    exact ⟨by rw [hv, Option.getD_some], div_nonneg hv0 hm0, div_le_one_of_le hvle hm0⟩
  · intro hall
    have hnone : ∀ t ∈ tokenize query, alistGet? (buildInvertedIndex docs) t = none := by
      intro t ht
      exact of_decide_eq_true (List.all_eq_true.mp hall t ht)
    exact keywordSearch_of_accum_nil _ _ _ _
      (keywordAccum_of_all_none _ _ _ _ hnone)

/-- C5 (witness): one document `"cat"`, query `"cat"`: the normalized score 1
of document 0 equals its accumulated score divided by the maximum. -/
theorem c5_keyword_scoring_witness :
    ((1 : ℚ) = (alistGet? (keywordAccum zeroLog ([⟨none, "cat"⟩] : List Doc).length
          (buildInvertedIndex [⟨none, "cat"⟩]) (tokenize "cat")) 0).getD 0
        / maxVal (keywordAccum zeroLog ([⟨none, "cat"⟩] : List Doc).length
          (buildInvertedIndex [⟨none, "cat"⟩]) (tokenize "cat"))
      ∧ 0 ≤ (1 : ℚ) ∧ (1 : ℚ) ≤ 1) :=
  (c5_keyword_scoring zeroLog (fun _ _ => le_refl 0) [⟨none, "cat"⟩] "cat").2.1 0 1
    (by
      have ht : tokenize "cat" = ["cat"] := rfl
      have hinv : buildInvertedIndex [⟨none, "cat"⟩] = [("cat", [0])] := rfl
      norm_num [hybridKeywordScores, keywordSearch, keywordAccum, keywordStep, ht, hinv,
        alistGet?, counterIncr, maxVal, zeroLog])

/-! ### Claim C10 — nonempty keyword mappings: positive values, maximum 1 -/

/-- C10: whenever keyword scoring returns a nonempty mapping, every value is
strictly positive and at most 1, and some document receives exactly the
normalized score 1 — the best match always gets 1 regardless of its absolute
accumulated weight. -/
theorem c10_keyword_max_one (log : ℚ → ℚ) (hlog : ∀ x : ℚ, 1 ≤ x → 0 ≤ log x)
    (docs : List Doc) (query : String)
    (hne : hybridKeywordScores log docs query ≠ []) :
    (∀ d w, alistGet? (hybridKeywordScores log docs query) d = some w → 0 < w ∧ w ≤ 1)
    ∧ ∃ d, alistGet? (hybridKeywordScores log docs query) d = some 1 := by
  have haccne : keywordAccum log docs.length (buildInvertedIndex docs) (tokenize query) ≠ [] := by
    intro h0
    exact hne (keywordSearch_of_accum_nil _ _ _ _ h0)
  have hkeys := keys_nodup_keywordAccum log docs.length (buildInvertedIndex docs)
    (tokenize query)
  -- every entry of the accumulated table has value at least 1
  have hone : ∀ p ∈ keywordAccum log docs.length (buildInvertedIndex docs) (tokenize query),
      (1 : ℚ) ≤ p.2 := by
    intro p hp
    have hget := mem_alistGet?_of_nodup hkeys hp
    have hval := alistGet?_keywordAccum log docs.length (buildInvertedIndex docs)
      (tokenize query) p.1
    rw [hget, Option.getD_some] at hval
    have hdom : p.1 ∈ (keywordAccum log docs.length (buildInvertedIndex docs)
        (tokenize query)).map Prod.fst := List.mem_map.mpr ⟨p, hp, rfl⟩
    obtain ⟨t, ht, ps, hps, hmem⟩ := (mem_keys_keywordAccum _ _ _ _ _).mp hdom
    have hcontrib : (1 : ℚ) ≤ tokenContrib log docs.length (buildInvertedIndex docs) p.1 t := by
      unfold tokenContrib
      rw [hps]
      have hidf := one_le_idf log hlog (posting_length_le docs t ps hps)
      have hcount : (1 : ℚ) ≤ (ps.count p.1 : ℚ) := by
        have := List.count_pos_iff_mem.mpr hmem
        exact_mod_cast this
      calc (1 : ℚ) = 1 * 1 := (one_mul 1).symm
        _ ≤ (ps.count p.1 : ℚ) * (log (((docs.length : ℚ) + 1) / ((ps.length : ℚ) + 1)) + 1) :=
            mul_le_mul hcount hidf zero_le_one (le_trans zero_le_one hcount)
    calc (1 : ℚ) ≤ tokenContrib log docs.length (buildInvertedIndex docs) p.1 t := hcontrib
      _ ≤ ((tokenize query).map (tokenContrib log docs.length (buildInvertedIndex docs) p.1)).sum := by
          refine List.single_le_sum ?_ _ (List.mem_map_of_mem _ ht)
          intro y hy
          obtain ⟨u, -, rfl⟩ := List.mem_map.mp hy
          exact tokenContrib_nonneg log hlog docs p.1 u
      _ = p.2 := hval.symm
  have hmaxpos : 0 < maxVal (keywordAccum log docs.length (buildInvertedIndex docs)
      (tokenize query)) := by
    obtain ⟨p, hp, hpm⟩ := maxVal_mem _ haccne
    calc (0 : ℚ) < 1 := zero_lt_one
      _ ≤ p.2 := hone p hp
      _ = _ := hpm
  constructor
  · intro d w hw
    rw [show hybridKeywordScores log docs query
          = keywordSearch log docs.length (buildInvertedIndex docs) query from rfl,
        keywordSearch_of_accum_ne _ _ _ _ haccne, alistGet?_map_div] at hw
    obtain ⟨v, hv, rfl⟩ := Option.map_eq_some'.mp hw
    have hvmem := alistGet?_eq_some_mem hv
    have hv1 := hone _ hvmem
    have hvle := le_maxVal _ _ hvmem
    exact ⟨div_pos (lt_of_lt_of_le zero_lt_one hv1) hmaxpos,
      div_le_one_of_le hvle (le_of_lt hmaxpos)⟩
  · obtain ⟨p, hp, hpm⟩ := maxVal_mem _ haccne
    refine ⟨p.1, ?_⟩
    rw [show hybridKeywordScores log docs query
          = keywordSearch log docs.length (buildInvertedIndex docs) query from rfl,
        keywordSearch_of_accum_ne _ _ _ _ haccne, alistGet?_map_div,
        mem_alistGet?_of_nodup hkeys hp]
    simp only [Option.map_some']
    rw [hpm, div_self (ne_of_gt hmaxpos)]

/-- C10 (witness): on the one-document corpus `"cat"` with query `"cat"` the
returned mapping is nonempty, and the value of document 0 is in `(0, 1]`. -/
theorem c10_keyword_max_one_witness : 0 < (1 : ℚ) ∧ (1 : ℚ) ≤ 1 :=
  (c10_keyword_max_one zeroLog (fun _ _ => le_refl 0) [⟨none, "cat"⟩] "cat"
    (by
      have ht : tokenize "cat" = ["cat"] := rfl
      have hinv : buildInvertedIndex [⟨none, "cat"⟩] = [("cat", [0])] := rfl
      norm_num [hybridKeywordScores, keywordSearch, keywordAccum, keywordStep, ht, hinv,
        alistGet?, counterIncr, maxVal, zeroLog])).1 0 1
    (by
      have ht : tokenize "cat" = ["cat"] := rfl
      have hinv : buildInvertedIndex [⟨none, "cat"⟩] = [("cat", [0])] := rfl
      norm_num [hybridKeywordScores, keywordSearch, keywordAccum, keywordStep, ht, hinv,
        alistGet?, counterIncr, maxVal, zeroLog])

/-! ### Encoder lemmas -/

theorem mem_dedupFirst [DecidableEq α] (l : List α) (a : α) : a ∈ dedupFirst l ↔ a ∈ l := by
  have key : ∀ (l acc : List α),
      a ∈ l.foldl (fun acc x => if x ∈ acc then acc else acc ++ [x]) acc
        ↔ a ∈ acc ∨ a ∈ l := by
    intro l
    induction l with
    | nil => intro acc; simp
    | cons x t ih =>
      intro acc
      rw [List.foldl_cons]
      by_cases hx : x ∈ acc
      · rw [if_pos hx, ih]
        simp only [List.mem_cons]
        constructor
        · rintro (h | h)
          · exact Or.inl h
          · exact Or.inr (Or.inr h)
        · rintro (h | rfl | h)
          · exact Or.inl h
          · exact Or.inl hx
          · exact Or.inr h
      · rw [if_neg hx, ih]
        simp only [List.mem_append, List.mem_singleton, List.mem_cons]
        tauto
  simpa using key l []

theorem idxOf?_eq_none_iff [DecidableEq α] (V : List α) (t : α) :
    idxOf? V t = none ↔ t ∉ V := by
  induction V with
  | nil => simp [idxOf?]
  | cons b V ih =>
    by_cases hb : b = t
    · simp [idxOf?, hb]
    · simp [idxOf?, hb, ih, Ne.symm hb]

/-- Writing at a vocabulary index inside a vocabulary-shaped map. -/
theorem set_map_idxOf [DecidableEq α] {V : List α} (hV : V.Nodup) {t : α} {i : ℕ}
    (h : idxOf? V t = some i) (g : α → ℚ) (v : ℚ) :
    (V.map g).set i v = V.map fun wd => if wd = t then v else g wd := by
  induction V generalizing i with
  | nil => simp [idxOf?] at h
  | cons b V ih =>
    rw [List.nodup_cons] at hV
    by_cases hb : b = t
    · subst hb
      simp only [idxOf?, if_pos rfl] at h
      have hi : i = 0 := (Option.some.inj h).symm
      subst hi
      simp only [List.map_cons, List.set_cons_zero, if_pos rfl]
      congr 1
      refine (List.map_congr_left fun wd hwd => ?_).symm
      have : wd ≠ b := fun hh => hV.1 (hh ▸ hwd)
      rw [if_neg this]
    · simp only [idxOf?, if_neg hb] at h
      obtain ⟨j, hj, rfl⟩ := Option.map_eq_some'.mp h
      simp only [List.map_cons, List.set_cons_succ]
      rw [ih hV.2 hj, if_neg hb]

/-- The non-normalized TF-IDF vector in closed form: position `i` holds
`(count(vocab[i]) / token_count) * idf[vocab[i]]` — only fit-vocabulary terms
receive a component, and a term absent from the text contributes 0. -/
theorem rawVec_closed (e : SimpleEmbedder) (hV : e.vocab.Nodup) (ts : List String) :
    e.rawVec ts = e.vocab.map fun wd =>
      ((ts.count wd : ℚ) / (ts.length : ℚ)) * ((alistGet? e.idf wd).getD 1) := by
  have key : ∀ (K : List String) (g : String → ℚ), K.Nodup →
      K.foldl (fun vec t => vecWrite e ts.length vec (t, ts.count t)) (e.vocab.map g)
      = e.vocab.map fun wd => if wd ∈ K
          then ((ts.count wd : ℚ) / (ts.length : ℚ)) * ((alistGet? e.idf wd).getD 1)
          else g wd := by
    intro K
    induction K with
    | nil => intro g _; simp
    | cons t K ih =>
      intro g hnd
      rw [List.nodup_cons] at hnd
      rw [List.foldl_cons]
      cases hidx : idxOf? e.vocab t with
      | none =>
        have ht : t ∉ e.vocab := (idxOf?_eq_none_iff _ _).mp hidx
        rw [vecWrite_none hidx, ih g hnd.2]
        refine List.map_congr_left fun wd hwd => ?_
        by_cases hw : wd ∈ K
        · simp [hw]
        · have hwt : wd ≠ t := fun hh => ht (hh ▸ hwd)
          simp [hw, hwt]
      | some i =>
        rw [vecWrite_some hidx, set_map_idxOf hV hidx g _, ih _ hnd.2]
        refine List.map_congr_left fun wd hwd => ?_
        by_cases hw : wd ∈ K
        · simp [hw]
        · by_cases hwt : wd = t
          · subst hwt
            simp [hw]
          · simp [hw, hwt]
  have hinit : (List.replicate e.vocab.length (0 : ℚ)) = e.vocab.map fun _ => (0 : ℚ) := by
    simp
  unfold SimpleEmbedder.rawVec counterNat
  rw [List.foldl_map, hinit]
  refine Eq.trans (key (dedupFirst ts) (fun _ => 0) (dedupFirst_nodup ts)) ?_
  refine List.map_congr_left fun wd hwd => ?_
  by_cases hw : wd ∈ dedupFirst ts
  · simp [hw]
  · have hts : wd ∉ ts := fun h => hw ((mem_dedupFirst ts wd).mpr h)
    rw [if_neg hw, List.count_eq_zero_of_not_mem hts]
    simp

theorem fit_vocab_nodup (log : ℚ → ℚ) (texts : List String) :
    (SimpleEmbedder.fit log texts).vocab.Nodup := by
  have h : (SimpleEmbedder.fit log texts).vocab
      = dedupFirst ((texts.map fun d => dedupFirst (tokenize d)).flatten) := by
    simp only [SimpleEmbedder.fit, List.map_map]
    exact Eq.trans (List.map_congr_left fun w hw => rfl) (List.map_id _)
  rw [h]
  exact dedupFirst_nodup _

theorem sumSq_cons (a : ℚ) (t : List ℚ) : sumSq (a :: t) = a * a + sumSq t := by
  simp [sumSq]

theorem sumSq_nonneg (v : List ℚ) : 0 ≤ sumSq v := by
  refine List.sum_nonneg ?_
  intro y hy
  obtain ⟨a, -, rfl⟩ := List.mem_map.mp hy
  exact mul_self_nonneg a

theorem sumSq_eq_zero {v : List ℚ} (h : sumSq v = 0) : v = List.replicate v.length 0 := by
  induction v with
  | nil => rfl
  | cons a t ih =>
    rw [sumSq_cons] at h
    have ha2 := mul_self_nonneg a
    have ht := sumSq_nonneg t
    have ha : a = 0 := mul_self_eq_zero.mp (by linarith)
    have ht0 : sumSq t = 0 := by linarith
    rw [List.length_cons, List.replicate_succ, ha, ← ih ht0]

theorem sumSq_map_div (v : List ℚ) (c : ℚ) :
    sumSq (v.map fun x => x / c) = sumSq v / (c * c) := by
  induction v with
  | nil => simp [sumSq]
  | cons a t ih =>
    rw [List.map_cons, sumSq_cons, sumSq_cons, ih, add_div, div_mul_div_comm]

/-! ### Claim C8 — the frequency embedder's `encode` -/

/-- C8: for an embedder fitted on a corpus and any input text, the encoded
vector has exactly the vocabulary's length; the raw vector is, position by
position, `(count(term)/token_count) * idf(term)` over the fit vocabulary
only, so out-of-vocabulary terms never receive a component; a zero raw norm
(empty or entirely out-of-vocabulary text) yields the zero vector rather
than an error; otherwise the output is exactly L2-normalized (its sum of
squares is 1).  `sqrt` is assumed to satisfy `sqrt 0 = 0` and
`sqrt S * sqrt S = S` at the one sum of squares the text produces — both
true of the real square root. -/
theorem c8_encode_normalized (log sqrt : ℚ → ℚ) (corpus : List String) (text : String)
    (hsqrt0 : sqrt 0 = 0)
    (hsq : sqrt (sumSq ((SimpleEmbedder.fit log corpus).rawVec (tokenize text)))
        * sqrt (sumSq ((SimpleEmbedder.fit log corpus).rawVec (tokenize text)))
      = sumSq ((SimpleEmbedder.fit log corpus).rawVec (tokenize text))) :
    ((SimpleEmbedder.fit log corpus).encodeOne sqrt text).length
        = (SimpleEmbedder.fit log corpus).vocab.length
    ∧ (SimpleEmbedder.fit log corpus).rawVec (tokenize text)
        = (SimpleEmbedder.fit log corpus).vocab.map (fun wd =>
            (((tokenize text).count wd : ℚ) / ((tokenize text).length : ℚ))
              * ((alistGet? (SimpleEmbedder.fit log corpus).idf wd).getD 1))
    ∧ (sumSq ((SimpleEmbedder.fit log corpus).rawVec (tokenize text)) = 0 →
        (SimpleEmbedder.fit log corpus).encodeOne sqrt text
          = List.replicate (SimpleEmbedder.fit log corpus).vocab.length 0)
    ∧ (sumSq ((SimpleEmbedder.fit log corpus).rawVec (tokenize text)) ≠ 0 →
        sumSq ((SimpleEmbedder.fit log corpus).encodeOne sqrt text) = 1) := by
  refine ⟨length_encodeOne sqrt _ text,
    rawVec_closed _ (fit_vocab_nodup log corpus) _, ?_, ?_⟩
  · intro hS
    have hraw : (SimpleEmbedder.fit log corpus).rawVec (tokenize text)
        = List.replicate ((SimpleEmbedder.fit log corpus).rawVec (tokenize text)).length 0 :=
      sumSq_eq_zero hS
    simp only [SimpleEmbedder.encodeOne, l2normalize]
    rw [hS, hsqrt0, if_pos rfl]
    rw [length_rawVec] at hraw
    rw [hraw]
    simp
  · intro hS
    have hnz : sqrt (sumSq ((SimpleEmbedder.fit log corpus).rawVec (tokenize text))) ≠ 0 := by
      intro h0
      exact hS (by rw [← hsq, h0, mul_zero])
    simp only [SimpleEmbedder.encodeOne, l2normalize]
    rw [if_neg hnz, sumSq_map_div, hsq]
    exact div_self hS

/-- C8 (witness): corpus `["a"]`, text `"a"`, real-behaved `sqrt := id` at the
arising sum of squares 1: the encoded vector has unit sum of squares. -/
theorem c8_encode_normalized_witness :
    sumSq ((SimpleEmbedder.fit zeroLog ["a"]).encodeOne idSqrt "a") = 1 :=
  have hS : sumSq ((SimpleEmbedder.fit zeroLog ["a"]).rawVec (tokenize "a")) = 1 := by
    have ht : tokenize "a" = ["a"] := rfl
    norm_num +decide [SimpleEmbedder.fit, SimpleEmbedder.rawVec, vecWrite, ht, sumSq, dedupFirst,
      counterNat, idxOf?, alistGet?, zeroLog, List.countP, List.countP.go]
  (c8_encode_normalized zeroLog idSqrt ["a"] "a" rfl
      (by rw [hS]; norm_num [idSqrt])).2.2.2
    (by rw [hS]; norm_num)

/-! ### Stable-sort lemmas -/

theorem length_insertDesc (key : α → ℚ) (a : α) (l : List α) :
    (insertDesc key a l).length = l.length + 1 := by
  induction l with
  | nil => rfl
  | cons b l ih =>
    by_cases h : key b ≤ key a <;> simp [insertDesc, h, ih]

theorem length_sortDesc (key : α → ℚ) (l : List α) :
    (sortDesc key l).length = l.length := by
  induction l with
  | nil => rfl
  | cons a l ih =>
    rw [sortDesc, length_insertDesc, ih, List.length_cons]

theorem perm_insertDesc (key : α → ℚ) (a : α) (l : List α) :
    List.Perm (insertDesc key a l) (a :: l) := by
  induction l with
  | nil => exact List.Perm.refl _
  | cons b l ih =>
    by_cases h : key b ≤ key a
    · rw [insertDesc, if_pos h]
    · rw [insertDesc, if_neg h]
      exact (ih.cons b).trans (List.Perm.swap a b l)

theorem perm_sortDesc (key : α → ℚ) (l : List α) : List.Perm (sortDesc key l) l := by
  induction l with
  | nil => exact List.Perm.refl _
  | cons a l ih => exact (perm_insertDesc key a _).trans (ih.cons a)

theorem pairwise_insertDesc (key : α → ℚ) (a : α) {l : List α}
    (h : List.Pairwise (fun x y => key y ≤ key x) l) :
    List.Pairwise (fun x y => key y ≤ key x) (insertDesc key a l) := by
  induction l with
  | nil => simp [insertDesc]
  | cons b l ih =>
    rw [List.pairwise_cons] at h
    by_cases hba : key b ≤ key a
    · rw [insertDesc, if_pos hba, List.pairwise_cons]
      refine ⟨fun y hy => ?_, List.pairwise_cons.mpr h⟩
      rcases List.mem_cons.mp hy with rfl | hy
      · exact hba
      · exact le_trans (h.1 y hy) hba
    · rw [insertDesc, if_neg hba, List.pairwise_cons]
      refine ⟨fun y hy => ?_, ih h.2⟩
      rcases List.mem_cons.mp ((perm_insertDesc key a l).mem_iff.mp hy) with rfl | hy
      · exact le_of_not_le hba
      · exact h.1 y hy

theorem pairwise_sortDesc (key : α → ℚ) (l : List α) :
    List.Pairwise (fun x y => key y ≤ key x) (sortDesc key l) := by
  induction l with
  | nil => exact List.Pairwise.nil
  | cons a l ih => exact pairwise_insertDesc key a ih

/-- A stable sort of an already-sorted list is the identity. -/
theorem sortDesc_eq_self (key : α → ℚ) :
    ∀ {l : List α}, List.Pairwise (fun x y => key y ≤ key x) l → sortDesc key l = l := by
  intro l
  induction l with
  | nil => intro _; rfl
  | cons a l ih =>
    intro h
    rw [List.pairwise_cons] at h
    rw [sortDesc, ih h.2]
    cases l with
    | nil => rfl
    | cons b t => rw [insertDesc, if_pos (h.1 b (List.mem_cons_self b t))]

/-- Stability: the elements of any fixed key value keep their relative order
(elements passed over by an insertion have strictly greater keys). -/
theorem filter_insertDesc (key : α → ℚ) (c : ℚ) (a : α) (l : List α) :
    (insertDesc key a l).filter (fun x => decide (key x = c))
      = if key a = c then a :: l.filter (fun x => decide (key x = c))
        else l.filter (fun x => decide (key x = c)) := by
  induction l with
  | nil =>
    by_cases hac : key a = c <;> simp [insertDesc, hac]
  | cons b l ih =>
    by_cases hba : key b ≤ key a
    · rw [insertDesc, if_pos hba]
      by_cases hac : key a = c <;> simp [List.filter_cons, hac]
    · rw [insertDesc, if_neg hba]
      have hab : key a < key b := lt_of_not_le hba
      by_cases hac : key a = c
      · have hbc : key b ≠ c := ne_of_gt (hac ▸ hab)
        simp [List.filter_cons, hbc, ih, hac]
      · by_cases hbc : key b = c <;> simp [List.filter_cons, hbc, ih, hac]

theorem filter_sortDesc (key : α → ℚ) (c : ℚ) (l : List α) :
    (sortDesc key l).filter (fun x => decide (key x = c))
      = l.filter (fun x => decide (key x = c)) := by
  induction l with
  | nil => rfl
  | cons a l ih =>
    rw [sortDesc, filter_insertDesc, ih]
    by_cases hac : key a = c <;> simp [List.filter_cons, hac]

/-! ### Merge-structure lemmas -/

theorem keys_alistUpd_of_mem [DecidableEq κ] {m : List (κ × ν)} {k : κ}
    (h : k ∈ m.map Prod.fst) (v : ν) :
    (alistUpd m k v).map Prod.fst = m.map Prod.fst := by
  induction m with
  | nil => simp at h
  | cons p l ih =>
    by_cases hpk : p.1 = k
    · simp [alistUpd, hpk]
    · have hkl : k ∈ l.map Prod.fst := by
        rw [List.map_cons] at h
        rcases List.mem_cons.mp h with hh | hh
        · exact absurd hh.symm hpk
        · exact hh
      simp [alistUpd, hpk, ih hkl]

theorem length_alistUpd_of_mem [DecidableEq κ] {m : List (κ × ν)} {k : κ}
    (h : k ∈ m.map Prod.fst) (v : ν) :
    (alistUpd m k v).length = m.length := by
  have h1 : (alistUpd m k v).length = ((alistUpd m k v).map Prod.fst).length :=
    (List.length_map _ _).symm
  rw [h1, keys_alistUpd_of_mem h v, List.length_map]

theorem alistUpd_of_not_mem [DecidableEq κ] {m : List (κ × ν)} {k : κ}
    (h : k ∉ m.map Prod.fst) (v : ν) : alistUpd m k v = m ++ [(k, v)] := by
  induction m with
  | nil => rfl
  | cons p l ih =>
    simp only [List.map_cons, List.mem_cons] at h
    push_neg at h
    have hpk : ¬p.1 = k := fun hh => h.1 hh.symm
    simp [alistUpd, hpk, ih h.2]

theorem alistGet?_alistUpd_self [DecidableEq κ] (m : List (κ × ν)) (k : κ) (v : ν) :
    alistGet? (alistUpd m k v) k = some v := by
  induction m with
  | nil => simp [alistUpd, alistGet?]
  | cons p l ih =>
    by_cases hpk : p.1 = k
    · simp [alistUpd, alistGet?, hpk]
    · simp [alistUpd, alistGet?, hpk, ih]

theorem alistGet?_alistUpd_ne [DecidableEq κ] (m : List (κ × ν)) (k : κ) (v : ν)
    {x : κ} (h : ¬x = k) : alistGet? (alistUpd m k v) x = alistGet? m x := by
  induction m with
  | nil =>
    have hkx : ¬k = x := fun hh => h hh.symm
    simp [alistUpd, alistGet?, hkx]
  | cons p l ih =>
    by_cases hpk : p.1 = k
    · have hpx : ¬p.1 = x := fun hh => h (hh.symm.trans hpk)
      have hkx : ¬k = x := fun hh => h hh.symm
      simp [alistUpd, alistGet?, hpk, hpx, hkx]
    · simp [alistUpd, alistGet?, hpk, ih]

/-- When the semantic merge keys are pairwise distinct, the first merge loop
is a plain enumeration-ordered map. -/
theorem mergeSemantic_eq (sem : List (Doc × ℚ))
    (hnd : (sem.enum.map fun p => docKey p.2.1 p.1).Nodup) :
    mergeSemantic sem
      = sem.enum.map fun p => (docKey p.2.1 p.1, (⟨p.2.1, p.2.2, 0⟩ : MergedEntry)) := by
  have key : ∀ (l : List (ℕ × (Doc × ℚ))) (m : List (DocKey × MergedEntry)),
      (l.map fun p => docKey p.2.1 p.1).Nodup →
      (∀ p ∈ l, docKey p.2.1 p.1 ∉ m.map Prod.fst) →
      l.foldl (fun m p => alistUpd m (docKey p.2.1 p.1) ⟨p.2.1, p.2.2, 0⟩) m
        = m ++ l.map fun p => (docKey p.2.1 p.1, (⟨p.2.1, p.2.2, 0⟩ : MergedEntry)) := by
    intro l
    induction l with
    | nil => intro m _ _; simp
    | cons p l ih =>
      intro m hnd hdisj
      rw [List.map_cons, List.nodup_cons] at hnd
      rw [List.foldl_cons, alistUpd_of_not_mem (hdisj p (List.mem_cons_self p l)) _]
      rw [ih _ hnd.2 ?_]
      · rw [List.map_cons, List.append_cons, List.append_assoc]
        simp
      · intro q hq
        simp only [List.map_append, List.mem_append, List.map_cons]
        push_neg
        refine ⟨fun hmem => hdisj q (List.mem_cons_of_mem p hq) hmem, ?_⟩
        simp only [List.map_nil, List.mem_singleton]
        intro hk
        exact hnd.1 (hk ▸ List.mem_map_of_mem _ hq)
  have h0 := key sem.enum [] hnd (by simp)
  simpa [mergeSemantic] using h0

theorem mergeKeywordStep_of_some {docs : List Doc} {m : List (DocKey × MergedEntry)}
    {p : ℕ × ℚ} {e : MergedEntry}
    (h : alistGet? m (docKey (docs.getD p.1 defaultDoc) p.1) = some e) :
    mergeKeywordStep docs m p
      = alistUpd m (docKey (docs.getD p.1 defaultDoc) p.1) { e with keywordScore := p.2 } := by
  simp only [mergeKeywordStep, h]

theorem mergeKeywordStep_of_none {docs : List Doc} {m : List (DocKey × MergedEntry)}
    {p : ℕ × ℚ}
    (h : alistGet? m (docKey (docs.getD p.1 defaultDoc) p.1) = none) :
    mergeKeywordStep docs m p
      = alistUpd m (docKey (docs.getD p.1 defaultDoc) p.1)
          ⟨docs.getD p.1 defaultDoc, 0, p.2⟩ := by
  simp only [mergeKeywordStep, h]

theorem length_mergeKeywordStep_ge (docs : List Doc) (m : List (DocKey × MergedEntry))
    (p : ℕ × ℚ) : m.length ≤ (mergeKeywordStep docs m p).length := by
  have key : ∀ v : MergedEntry,
      m.length ≤ (alistUpd m (docKey (docs.getD p.1 defaultDoc) p.1) v).length := by
    intro v
    rcases Classical.em (docKey (docs.getD p.1 defaultDoc) p.1 ∈ m.map Prod.fst) with hk | hk
    · rw [length_alistUpd_of_mem hk]
    · rw [alistUpd_of_not_mem hk]
      simp
  cases hg : alistGet? m (docKey (docs.getD p.1 defaultDoc) p.1) with
  | none => rw [mergeKeywordStep_of_none hg]; exact key _
  | some e => rw [mergeKeywordStep_of_some hg]; exact key _

theorem length_mergeKeyword_ge (docs : List Doc) (kws : List (ℕ × ℚ)) :
    ∀ m : List (DocKey × MergedEntry), m.length ≤ (mergeKeyword docs m kws).length := by
  induction kws with
  | nil => intro m; exact le_refl _
  | cons p kws ih =>
    intro m
    exact le_trans (length_mergeKeywordStep_ge docs m p) (ih (mergeKeywordStep docs m p))

/-- When every keyword key is already a semantic merge key, the second loop
only updates entries in place: the key list (hence the length) is unchanged. -/
theorem keys_mergeKeyword_of_covered (docs : List Doc) (kws : List (ℕ × ℚ)) :
    ∀ m : List (DocKey × MergedEntry),
      (∀ p ∈ kws, docKey (docs.getD p.1 defaultDoc) p.1 ∈ m.map Prod.fst) →
      (mergeKeyword docs m kws).map Prod.fst = m.map Prod.fst := by
  induction kws with
  | nil => intro m _; rfl
  | cons p kws ih =>
    intro m hcov
    have hk := hcov p (List.mem_cons_self p kws)
    have hkeys : (mergeKeywordStep docs m p).map Prod.fst = m.map Prod.fst := by
      cases hg : alistGet? m (docKey (docs.getD p.1 defaultDoc) p.1) with
      | none => rw [mergeKeywordStep_of_none hg, keys_alistUpd_of_mem hk]
      | some e => rw [mergeKeywordStep_of_some hg, keys_alistUpd_of_mem hk]
    rw [show mergeKeyword docs m (p :: kws)
        = mergeKeyword docs (mergeKeywordStep docs m p) kws from rfl]
    rw [ih _ (by intro q hq; rw [hkeys]; exact hcov q (List.mem_cons_of_mem p hq)), hkeys]

/-! ### Brute-force search structure -/

/-- The scored pairs `_brute_force_search` sorts. -/
theorem bruteForce_snd_perm (vecs : List (List ℚ)) (qv : List ℚ) :
    List.Perm
      ((sortDesc (fun p => p.1) (vecs.enum.map fun p => (dot qv p.2, p.1))).map Prod.snd)
      (List.range vecs.length) := by
  have h1 := (perm_sortDesc (fun p => p.1) (vecs.enum.map fun p => (dot qv p.2, p.1))).map
    Prod.snd
  have h3 : ((vecs.enum.map fun p => (dot qv p.2, p.1)).map Prod.snd)
      = List.range vecs.length := by
    rw [List.map_map]
    exact Eq.trans (List.map_congr_left fun p hp => rfl) (List.enum_map_fst vecs)
  rw [h3] at h1
  exact h1

theorem bruteForce_take_snd_nodup (vecs : List (List ℚ)) (qv : List ℚ) (s : ℕ) :
    (((sortDesc (fun p => p.1) (vecs.enum.map fun p => (dot qv p.2, p.1))).take s).map
      Prod.snd).Nodup := by
  have hnd : ((sortDesc (fun p => p.1) (vecs.enum.map fun p => (dot qv p.2, p.1))).map
      Prod.snd).Nodup :=
    (bruteForce_snd_perm vecs qv).nodup_iff.mpr (List.nodup_range _)
  exact hnd.sublist ((List.take_sublist s _).map Prod.snd)

theorem bruteForce_take_snd_lt (vecs : List (List ℚ)) (qv : List ℚ) (s : ℕ) (p : ℚ × ℕ)
    (hp : p ∈ (sortDesc (fun p => p.1) (vecs.enum.map fun p => (dot qv p.2, p.1))).take s) :
    p.2 < vecs.length := by
  have h1 : p.2 ∈ (sortDesc (fun p => p.1)
      (vecs.enum.map fun p => (dot qv p.2, p.1))).map Prod.snd :=
    List.mem_map_of_mem _ ((List.take_sublist s _).mem hp)
  have h2 := (bruteForce_snd_perm vecs qv).mem_iff.mp h1
  exact List.mem_range.mp h2

/-! ### Merge keys under corpus id discipline -/

/-- The spec's document model (§3): ids are unique within one corpus, or
absent entirely (in which case the engine falls back to integer defaults).
Mixing identified and unidentified documents leaves the merge mis-keyed. -/
def idDiscipline (docs : List Doc) : Prop :=
  (∀ d ∈ docs, d.id = none) ∨
    ((∀ d ∈ docs, d.id ≠ none) ∧ List.Pairwise (fun a b : Doc => a.id ≠ b.id) docs)

theorem getD_mem {l : List α} {n : ℕ} (h : n < l.length) (d : α) : l.getD n d ∈ l := by
  rw [List.getD_eq_getElem l d h]
  exact List.getElem_mem h

theorem docKey_of_some {d : Doc} {s : String} (h : d.id = some s) (i : ℕ) :
    docKey d i = Sum.inr s := by
  unfold docKey
  rw [h]

theorem docKey_of_none {d : Doc} (h : d.id = none) (i : ℕ) :
    docKey d i = Sum.inl i := by
  unfold docKey
  rw [h]

/-- With no explicit ids, the semantic merge keys are the enumeration ranks. -/
theorem semKeys_of_allNone {RES : List (Doc × ℚ)} (h : ∀ r ∈ RES, r.1.id = none) :
    (RES.enum.map fun q => docKey q.2.1 q.1) = (List.range RES.length).map Sum.inl := by
  have h1 : (RES.enum.map fun q => docKey q.2.1 q.1)
      = RES.enum.map fun q => Sum.inl q.1 := by
    refine List.map_congr_left fun q hq => ?_
    have hq2 : q.2 ∈ RES := by
      have := List.mem_map_of_mem Prod.snd hq
      rwa [List.enum_map_snd] at this
    simp [docKey, h q.2 hq2]
  rw [h1,
    show (RES.enum.map fun q => (Sum.inl q.1 : DocKey))
      = (RES.enum.map Prod.fst).map Sum.inl from by rw [List.map_map]; rfl,
    List.enum_map_fst]

theorem semKeys_nodup_of_allNone {RES : List (Doc × ℚ)} (h : ∀ r ∈ RES, r.1.id = none) :
    (RES.enum.map fun q => docKey q.2.1 q.1).Nodup := by
  rw [semKeys_of_allNone h]
  exact (List.nodup_range _).map Sum.inl_injective

/-- With explicit ids everywhere, a semantic merge key depends only on the
selected document, not on its rank. -/
theorem semKeys_of_allSome (docs : List Doc) (SEL : List (ℚ × ℕ))
    (hsome : ∀ d ∈ docs, d.id ≠ none) (hlt : ∀ p ∈ SEL, p.2 < docs.length) :
    ((SEL.map fun p => (docs.getD p.2 defaultDoc, round4 p.1)).enum.map
        fun q => docKey q.2.1 q.1)
      = SEL.map fun p => Sum.inr ((docs.getD p.2 defaultDoc).id.getD "") := by
  have key : ∀ (L : List (ℚ × ℕ)) (n : ℕ), (∀ p ∈ L, p.2 < docs.length) →
      ((List.enumFrom n (L.map fun p => (docs.getD p.2 defaultDoc, round4 p.1))).map
        fun q => docKey q.2.1 q.1)
      = L.map fun p => Sum.inr ((docs.getD p.2 defaultDoc).id.getD "") := by
    intro L
    induction L with
    | nil => intro n _; rfl
    | cons p L ih =>
      intro n hlt
      rw [List.map_cons, List.enumFrom_cons, List.map_cons,
        ih (n + 1) fun q hq => hlt q (List.mem_cons_of_mem p hq), List.map_cons]
      congr 1
      have hd : docs.getD p.2 defaultDoc ∈ docs :=
        getD_mem (hlt p (List.mem_cons_self p L)) _
      cases hcase : (docs.getD p.2 defaultDoc).id with
      | none => exact absurd hcase (hsome _ hd)
      | some s =>
        rw [docKey_of_some hcase]
        simp [hcase]
  exact key SEL 0 hlt

/-- Distinct positions hold documents with distinct ids. -/
theorem ids_injective {docs : List Doc}
    (hpair : List.Pairwise (fun a b : Doc => a.id ≠ b.id) docs)
    {i j : ℕ} (hi : i < docs.length) (hj : j < docs.length) (hne : i ≠ j) :
    (docs.get ⟨i, hi⟩).id ≠ (docs.get ⟨j, hj⟩).id := by
  rw [List.pairwise_iff_get] at hpair
  rcases Nat.lt_or_ge i j with hlt | hge
  · exact hpair ⟨i, hi⟩ ⟨j, hj⟩ hlt
  · have hlt : j < i := lt_of_le_of_ne hge (Ne.symm hne)
    exact (hpair ⟨j, hj⟩ ⟨i, hi⟩ hlt).symm

theorem semKeys_nodup_of_allSome (docs : List Doc) (SEL : List (ℚ × ℕ))
    (hsome : ∀ d ∈ docs, d.id ≠ none)
    (hpair : List.Pairwise (fun a b : Doc => a.id ≠ b.id) docs)
    (hnd : (SEL.map Prod.snd).Nodup) (hlt : ∀ p ∈ SEL, p.2 < docs.length) :
    ((SEL.map fun p => (docs.getD p.2 defaultDoc, round4 p.1)).enum.map
      fun q => docKey q.2.1 q.1).Nodup := by
  rw [semKeys_of_allSome docs SEL hsome hlt,
    show (SEL.map fun p => (Sum.inr ((docs.getD p.2 defaultDoc).id.getD "") : DocKey))
      = (SEL.map Prod.snd).map fun i => Sum.inr ((docs.getD i defaultDoc).id.getD "") from by
        rw [List.map_map]
        exact List.map_congr_left fun p hp => rfl]
  refine List.Nodup.map_on ?_ hnd
  intro i hi j hj hij
  obtain ⟨p, hp, rfl⟩ := List.mem_map.mp hi
  obtain ⟨q, hq, rfl⟩ := List.mem_map.mp hj
  by_contra hne
  have hi' : p.2 < docs.length := hlt p hp
  have hj' : q.2 < docs.length := hlt q hq
  have hids := ids_injective hpair hi' hj' hne
  have heq : (docs.getD p.2 defaultDoc).id.getD "" = (docs.getD q.2 defaultDoc).id.getD "" :=
    Sum.inr_injective hij
  have hgi : docs.getD p.2 defaultDoc = docs.get ⟨p.2, hi'⟩ := by
    rw [List.getD_eq_getElem docs defaultDoc hi']
    rfl
  have hgj : docs.getD q.2 defaultDoc = docs.get ⟨q.2, hj'⟩ := by
    rw [List.getD_eq_getElem docs defaultDoc hj']
    rfl
  have hsi := hsome _ (getD_mem hi' defaultDoc)
  have hsj := hsome _ (getD_mem hj' defaultDoc)
  apply hids
  rw [← hgi, ← hgj]
  cases hci : (docs.getD p.2 defaultDoc).id with
  | none => exact absurd hci hsi
  | some a =>
    cases hcj : (docs.getD q.2 defaultDoc).id with
    | none => exact absurd hcj hsj
    | some b =>
      rw [hci, hcj] at heq
      simp only [Option.getD_some] at heq
      rw [heq]

/-! ### The semantic candidate list of an indexed corpus -/

theorem corpusVectors_length (log sqrt : ℚ → ℚ) (docs : List Doc) :
    (corpusVectors log sqrt docs).length = docs.length := by
  unfold corpusVectors
  rw [List.length_map, List.length_map]

theorem length_hybridSemanticResults (log sqrt : ℚ → ℚ) (docs : List Doc) (query : String)
    (topK : ℕ) :
    (hybridSemanticResults log sqrt docs query topK).length = min (topK * 2) docs.length := by
  unfold hybridSemanticResults bruteForceSearch
  rw [List.length_map, List.length_take, length_sortDesc, List.length_map,
    List.enum_length, corpusVectors_length]

theorem hybridSemanticResults_id_none (log sqrt : ℚ → ℚ) {docs : List Doc}
    (h : ∀ d ∈ docs, d.id = none) (query : String) (topK : ℕ) :
    ∀ r ∈ hybridSemanticResults log sqrt docs query topK, r.1.id = none := by
  intro r hr
  simp only [hybridSemanticResults, bruteForceSearch] at hr
  obtain ⟨p, hp, rfl⟩ := List.mem_map.mp hr
  have hlt := bruteForce_take_snd_lt _ _ _ p hp
  rw [corpusVectors_length] at hlt
  exact h _ (getD_mem hlt _)

/-- Every keyword-score entry refers to a valid corpus position. -/
theorem hybridKeywordScores_fst_lt (log : ℚ → ℚ) (docs : List Doc) (query : String)
    (p : ℕ × ℚ) (hp : p ∈ hybridKeywordScores log docs query) : p.1 < docs.length := by
  unfold hybridKeywordScores at hp
  rcases Classical.em
      (keywordAccum log docs.length (buildInvertedIndex docs) (tokenize query) = [])
    with h | h
  · rw [keywordSearch_of_accum_nil _ _ _ _ h] at hp
    simp at hp
  · rw [keywordSearch_of_accum_ne _ _ _ _ h] at hp
    obtain ⟨q, hq, rfl⟩ := List.mem_map.mp hp
    have hkey : q.1 ∈ (keywordAccum log docs.length (buildInvertedIndex docs)
        (tokenize query)).map Prod.fst := List.mem_map_of_mem Prod.fst hq
    obtain ⟨t, -, ps, hps, hmem⟩ := (mem_keys_keywordAccum _ _ _ _ _).mp hkey
    exact (buildInvertedIndex_spec docs t ps hps).2 _ hmem

/-! ### Merged-table structure -/

theorem keys_mergeSemantic (sem : List (Doc × ℚ))
    (hnd : (sem.enum.map fun p => docKey p.2.1 p.1).Nodup) :
    (mergeSemantic sem).map Prod.fst = sem.enum.map fun p => docKey p.2.1 p.1 := by
  rw [mergeSemantic_eq sem hnd, List.map_map]
  rfl

theorem length_mergeSemantic (sem : List (Doc × ℚ))
    (hnd : (sem.enum.map fun p => docKey p.2.1 p.1).Nodup) :
    (mergeSemantic sem).length = sem.length := by
  rw [mergeSemantic_eq sem hnd, List.length_map, List.enum_length]

theorem mem_alistUpd [DecidableEq κ] (k : κ) (v : ν) :
    ∀ m : List (κ × ν), ∀ q ∈ alistUpd m k v, q ∈ m ∨ q = (k, v) := by
  intro m
  induction m with
  | nil =>
    intro q hq
    simp only [alistUpd, List.mem_singleton] at hq
    exact Or.inr hq
  | cons p l ih =>
    intro q hq
    by_cases hpk : p.1 = k
    · rw [show alistUpd (p :: l) k v = (k, v) :: l from by simp [alistUpd, hpk]] at hq
      rcases List.mem_cons.mp hq with rfl | hq
      · exact Or.inr rfl
      · exact Or.inl (List.mem_cons_of_mem p hq)
    · rw [show alistUpd (p :: l) k v = p :: alistUpd l k v from by simp [alistUpd, hpk]] at hq
      rcases List.mem_cons.mp hq with hq1 | hq
      · exact Or.inl (by rw [hq1]; exact List.mem_cons_self p l)
      · rcases ih q hq with h | h
        · exact Or.inl (List.mem_cons_of_mem p h)
        · exact Or.inr h

theorem key_mem_alistUpd [DecidableEq κ] (m : List (κ × ν)) (k : κ) (v : ν) :
    k ∈ (alistUpd m k v).map Prod.fst := by
  rcases Classical.em (k ∈ m.map Prod.fst) with h | h
  · rw [keys_alistUpd_of_mem h v]
    exact h
  · rw [alistUpd_of_not_mem h v]
    simp

theorem keys_nodup_mergeKeywordStep (docs : List Doc) (m : List (DocKey × MergedEntry))
    (p : ℕ × ℚ) (hm : (m.map Prod.fst).Nodup) :
    ((mergeKeywordStep docs m p).map Prod.fst).Nodup := by
  rcases Classical.em (docKey (docs.getD p.1 defaultDoc) p.1 ∈ m.map Prod.fst) with hk | hk
  · cases hg : alistGet? m (docKey (docs.getD p.1 defaultDoc) p.1) with
    | none =>
      rw [mergeKeywordStep_of_none hg, keys_alistUpd_of_mem hk]
      exact hm
    | some e =>
      rw [mergeKeywordStep_of_some hg, keys_alistUpd_of_mem hk]
      exact hm
  · cases hg : alistGet? m (docKey (docs.getD p.1 defaultDoc) p.1) with
    | none =>
      rw [mergeKeywordStep_of_none hg, alistUpd_of_not_mem hk, List.map_append]
      refine hm.append (List.nodup_singleton _) ?_
      intro x hx hx1
      simp only [List.map_singleton, List.mem_singleton] at hx1
      subst hx1
      exact hk hx
    | some e =>
      have hs : (alistGet? m (docKey (docs.getD p.1 defaultDoc) p.1)).isSome := by
        rw [hg]
        rfl
      exact absurd ((alistGet?_isSome_iff m _).mp hs) hk

theorem keys_nodup_mergeKeyword (docs : List Doc) (kws : List (ℕ × ℚ)) :
    ∀ m : List (DocKey × MergedEntry), (m.map Prod.fst).Nodup →
      ((mergeKeyword docs m kws).map Prod.fst).Nodup := by
  induction kws with
  | nil => intro m hm; exact hm
  | cons p kws ih =>
    intro m hm
    exact ih (mergeKeywordStep docs m p) (keys_nodup_mergeKeywordStep docs m p hm)

/-- One keyword-merge step leaves the key list unchanged or appends its own
key at the end. -/
theorem keys_mergeKeywordStep (docs : List Doc) (m : List (DocKey × MergedEntry))
    (p : ℕ × ℚ) :
    (mergeKeywordStep docs m p).map Prod.fst = m.map Prod.fst
      ∨ (mergeKeywordStep docs m p).map Prod.fst
        = m.map Prod.fst ++ [docKey (docs.getD p.1 defaultDoc) p.1] := by
  rcases Classical.em (docKey (docs.getD p.1 defaultDoc) p.1 ∈ m.map Prod.fst) with hk | hk
  · left
    cases hg : alistGet? m (docKey (docs.getD p.1 defaultDoc) p.1) with
    | none => rw [mergeKeywordStep_of_none hg, keys_alistUpd_of_mem hk]
    | some e => rw [mergeKeywordStep_of_some hg, keys_alistUpd_of_mem hk]
  · right
    cases hg : alistGet? m (docKey (docs.getD p.1 defaultDoc) p.1) with
    | none =>
      rw [mergeKeywordStep_of_none hg, alistUpd_of_not_mem hk, List.map_append]
      rfl
    | some e =>
      have hs : (alistGet? m (docKey (docs.getD p.1 defaultDoc) p.1)).isSome := by
        rw [hg]
        rfl
      exact absurd ((alistGet?_isSome_iff m _).mp hs) hk

theorem keys_subset_mergeKeyword (docs : List Doc) (kws : List (ℕ × ℚ)) :
    ∀ (m : List (DocKey × MergedEntry)) (k : DocKey), k ∈ m.map Prod.fst →
      k ∈ (mergeKeyword docs m kws).map Prod.fst := by
  induction kws with
  | nil => intro m k hk; exact hk
  | cons p kws ih =>
    intro m k hk
    refine ih (mergeKeywordStep docs m p) k ?_
    rcases keys_mergeKeywordStep docs m p with h | h
    · rw [h]
      exact hk
    · rw [h]
      exact List.mem_append_left _ hk

theorem key_mem_mergeKeyword (docs : List Doc) (kws : List (ℕ × ℚ)) :
    ∀ m : List (DocKey × MergedEntry), ∀ p ∈ kws,
      docKey (docs.getD p.1 defaultDoc) p.1 ∈ (mergeKeyword docs m kws).map Prod.fst := by
  induction kws with
  | nil => intro m p hp; simp at hp
  | cons q kws ih =>
    intro m p hp
    rcases List.mem_cons.mp hp with rfl | hp
    · refine keys_subset_mergeKeyword docs kws (mergeKeywordStep docs m p) _ ?_
      cases hg : alistGet? m (docKey (docs.getD p.1 defaultDoc) p.1) with
      | none =>
        rw [mergeKeywordStep_of_none hg]
        exact key_mem_alistUpd m _ _
      | some e =>
        rw [mergeKeywordStep_of_some hg]
        exact key_mem_alistUpd m _ _
    · exact ih (mergeKeywordStep docs m q) p hp

/-- Invariants of the keyword-merge loop: a property holding for every entry
of the initial table, preserved by in-place keyword updates, and holding for
every freshly inserted keyword entry, holds for every entry of the final
table. -/
theorem mergeKeyword_invariant (docs : List Doc) (P : DocKey × MergedEntry → Prop) :
    ∀ kws : List (ℕ × ℚ),
      (∀ p ∈ kws, ∀ e : MergedEntry,
        P (docKey (docs.getD p.1 defaultDoc) p.1, e) →
        P (docKey (docs.getD p.1 defaultDoc) p.1, ⟨e.document, e.semanticScore, p.2⟩)) →
      (∀ p ∈ kws,
        P (docKey (docs.getD p.1 defaultDoc) p.1, ⟨docs.getD p.1 defaultDoc, 0, p.2⟩)) →
      ∀ m : List (DocKey × MergedEntry), (∀ q ∈ m, P q) →
        ∀ q ∈ mergeKeyword docs m kws, P q := by
  intro kws
  induction kws with
  | nil => intro _ _ m hm q hq; exact hm q hq
  | cons p kws ih =>
    intro hupd hnew m hm q hq
    refine ih (fun r hr => hupd r (List.mem_cons_of_mem p hr))
      (fun r hr => hnew r (List.mem_cons_of_mem p hr))
      (mergeKeywordStep docs m p) ?_ q hq
    intro q' hq'
    cases hg : alistGet? m (docKey (docs.getD p.1 defaultDoc) p.1) with
    | none =>
      rw [mergeKeywordStep_of_none hg] at hq'
      rcases mem_alistUpd _ _ m q' hq' with h | h
      · exact hm q' h
      · rw [h]
        exact hnew p (List.mem_cons_self p kws)
    | some e =>
      rw [mergeKeywordStep_of_some hg] at hq'
      rcases mem_alistUpd _ _ m q' hq' with h | h
      · exact hm q' h
      · rw [h]
        exact hupd p (List.mem_cons_self p kws) e
          (hm _ (alistGet?_eq_some_mem hg))

/-- An in-place update of the keyword component leaves the `(key, document,
semantic-score)` projection of the table unchanged. -/
theorem semProj_alistUpd (m : List (DocKey × MergedEntry)) (k : DocKey)
    (e : MergedEntry) (c : ℚ) (hg : alistGet? m k = some e) :
    (alistUpd m k ⟨e.document, e.semanticScore, c⟩).map
        (fun q => (q.1, q.2.document, q.2.semanticScore))
      = m.map fun q => (q.1, q.2.document, q.2.semanticScore) := by
  induction m with
  | nil => simp [alistGet?] at hg
  | cons p l ih =>
    by_cases hpk : p.1 = k
    · have he : p.2 = e := by
        have h1 : alistGet? (p :: l) k = some p.2 := by simp [alistGet?, hpk]
        rw [h1] at hg
        exact Option.some.inj hg
      have h2 : alistUpd (p :: l) k ⟨e.document, e.semanticScore, c⟩
          = (k, ⟨e.document, e.semanticScore, c⟩) :: l := by simp [alistUpd, hpk]
      rw [h2, List.map_cons, List.map_cons, ← he, ← hpk]
    · have h1 : alistGet? l k = some e := by
        have hh : alistGet? (p :: l) k = alistGet? l k := by simp [alistGet?, hpk]
        rw [hh] at hg
        exact hg
      have h2 : alistUpd (p :: l) k ⟨e.document, e.semanticScore, c⟩
          = p :: alistUpd l k ⟨e.document, e.semanticScore, c⟩ := by simp [alistUpd, hpk]
      rw [h2, List.map_cons, List.map_cons, ih h1]

/-- The keyword-merge loop only rewrites keyword components of existing
entries and appends keyword-only entries with semantic score `0`: its
`(key, document, semantic-score)` projection is the initial one followed by
a zero-semantic-score tail. -/
theorem semProj_mergeKeyword (docs : List Doc) (kws : List (ℕ × ℚ)) :
    ∀ m : List (DocKey × MergedEntry),
      ∃ ext : List (DocKey × Doc),
        (mergeKeyword docs m kws).map (fun q => (q.1, q.2.document, q.2.semanticScore))
          = m.map (fun q => (q.1, q.2.document, q.2.semanticScore))
            ++ ext.map fun q => (q.1, q.2, (0 : ℚ)) := by
  induction kws with
  | nil => intro m; exact ⟨[], by simp [mergeKeyword]⟩
  | cons p kws ih =>
    intro m
    cases hg : alistGet? m (docKey (docs.getD p.1 defaultDoc) p.1) with
    | some e =>
      obtain ⟨ext, hext⟩ := ih (mergeKeywordStep docs m p)
      refine ⟨ext, ?_⟩
      rw [show mergeKeyword docs m (p :: kws)
            = mergeKeyword docs (mergeKeywordStep docs m p) kws from rfl, hext,
        mergeKeywordStep_of_some hg, semProj_alistUpd m _ e p.2 hg]
    | none =>
      obtain ⟨ext, hext⟩ := ih (mergeKeywordStep docs m p)
      refine ⟨(docKey (docs.getD p.1 defaultDoc) p.1, docs.getD p.1 defaultDoc) :: ext, ?_⟩
      have hnm : docKey (docs.getD p.1 defaultDoc) p.1 ∉ m.map Prod.fst := by
        intro hmem
        have hs := (alistGet?_isSome_iff m _).mpr hmem
        rw [hg] at hs
        simp at hs
      rw [show mergeKeyword docs m (p :: kws)
            = mergeKeyword docs (mergeKeywordStep docs m p) kws from rfl, hext,
        mergeKeywordStep_of_none hg, alistUpd_of_not_mem hnm, List.map_append,
        List.append_assoc]
      simp

/-! ### Rounding -/

theorem round4_zero : round4 0 = 0 := by
  norm_num [round4]

theorem round4_mono {a b : ℚ} (h : a ≤ b) : round4 a ≤ round4 b := by
  have h1 : round (a * 10000) ≤ round (b * 10000) := by
    rw [round_eq, round_eq]
    refine Int.floor_mono ?_
    linarith
  have h2 : ((round (a * 10000) : ℤ) : ℚ) ≤ ((round (b * 10000) : ℤ) : ℚ) := by
    exact_mod_cast h1
  unfold round4
  linarith

theorem round4_nonneg {a : ℚ} (h : 0 ≤ a) : 0 ≤ round4 a := by
  have := round4_mono h
  rwa [round4_zero] at this

/-! ### Semantic merge keys and coverage under the id discipline -/

/-- Under the spec's id discipline the semantic merge keys are pairwise
distinct. -/
theorem hybrid_semKeys_nodup (log sqrt : ℚ → ℚ) (docs : List Doc) (query : String)
    (topK : ℕ) (hid : idDiscipline docs) :
    ((hybridSemanticResults log sqrt docs query topK).enum.map
      fun p => docKey p.2.1 p.1).Nodup := by
  rcases hid with hnone | ⟨hsome, hpair⟩
  · exact semKeys_nodup_of_allNone
      (hybridSemanticResults_id_none log sqrt hnone query topK)
  · have hres : hybridSemanticResults log sqrt docs query topK
        = ((sortDesc (fun p => p.1)
              ((corpusVectors log sqrt docs).enum.map fun p =>
                (dot ((corpusEmbedder log docs).encodeOne sqrt query) p.2, p.1))).take
            (topK * 2)).map
          fun p => (docs.getD p.2 defaultDoc, round4 p.1) := rfl
    rw [hres]
    refine semKeys_nodup_of_allSome docs _ hsome hpair
      (bruteForce_take_snd_nodup _ _ _) ?_
    intro p hp
    have hlt := bruteForce_take_snd_lt _ _ _ p hp
    rwa [corpusVectors_length] at hlt

/-- When the whole corpus fits into the over-fetched semantic candidate list,
every keyword entry's merge key is already a semantic merge key. -/
theorem kwKeys_covered (log sqrt : ℚ → ℚ) (docs : List Doc) (query : String) (topK : ℕ)
    (hid : idDiscipline docs) (hN : docs.length ≤ topK * 2) :
    ∀ p ∈ hybridKeywordScores log docs query,
      docKey (docs.getD p.1 defaultDoc) p.1
        ∈ (mergeSemantic (hybridSemanticResults log sqrt docs query topK)).map Prod.fst := by
  intro p hp
  have hlt : p.1 < docs.length := hybridKeywordScores_fst_lt log docs query p hp
  rw [keys_mergeSemantic _ (hybrid_semKeys_nodup log sqrt docs query topK hid)]
  rcases hid with hnone | ⟨hsome, hpair⟩
  · rw [semKeys_of_allNone (hybridSemanticResults_id_none log sqrt hnone query topK),
      length_hybridSemanticResults, min_eq_right hN,
      docKey_of_none (hnone _ (getD_mem hlt defaultDoc)) p.1]
    exact List.mem_map_of_mem Sum.inl (List.mem_range.mpr hlt)
  · have hres : hybridSemanticResults log sqrt docs query topK
        = ((sortDesc (fun r => r.1)
              ((corpusVectors log sqrt docs).enum.map fun r =>
                (dot ((corpusEmbedder log docs).encodeOne sqrt query) r.2, r.1))).take
            (topK * 2)).map
          fun r => (docs.getD r.2 defaultDoc, round4 r.1) := rfl
    have hltSEL : ∀ r ∈ (sortDesc (fun r => r.1)
          ((corpusVectors log sqrt docs).enum.map fun r =>
            (dot ((corpusEmbedder log docs).encodeOne sqrt query) r.2, r.1))).take
        (topK * 2), r.2 < docs.length := by
      intro r hr
      have hlt' := bruteForce_take_snd_lt _ _ _ r hr
      rwa [corpusVectors_length] at hlt'
    rw [hres, semKeys_of_allSome docs _ hsome hltSEL]
    cases hcase : (docs.getD p.1 defaultDoc).id with
    | none => exact absurd hcase (hsome _ (getD_mem hlt defaultDoc))
    | some s =>
      rw [docKey_of_some hcase]
      have hfull : (sortDesc (fun r : ℚ × ℕ => r.1)
            ((corpusVectors log sqrt docs).enum.map fun r =>
              (dot ((corpusEmbedder log docs).encodeOne sqrt query) r.2, r.1))).take
          (topK * 2)
          = sortDesc (fun r : ℚ × ℕ => r.1)
            ((corpusVectors log sqrt docs).enum.map fun r =>
              (dot ((corpusEmbedder log docs).encodeOne sqrt query) r.2, r.1)) := by
        refine List.take_of_length_le ?_
        rw [length_sortDesc, List.length_map, List.enum_length, corpusVectors_length]
        exact hN
      have hperm := bruteForce_snd_perm (corpusVectors log sqrt docs)
        ((corpusEmbedder log docs).encodeOne sqrt query)
      have hmem : p.1 ∈ ((sortDesc (fun r : ℚ × ℕ => r.1)
            ((corpusVectors log sqrt docs).enum.map fun r =>
              (dot ((corpusEmbedder log docs).encodeOne sqrt query) r.2, r.1))).take
          (topK * 2)).map Prod.snd := by
        rw [hfull]
        refine hperm.mem_iff.mpr (List.mem_range.mpr ?_)
        rw [corpusVectors_length]
        exact hlt
      obtain ⟨q, hq, hq2⟩ := List.mem_map.mp hmem
      refine List.mem_map.mpr ⟨q, hq, ?_⟩
      rw [show (q.2 : ℕ) = p.1 from hq2, hcase]
      rfl

/-- In a corpus whose documents all carry pairwise-distinct explicit ids,
equal ids mean equal documents. -/
theorem doc_eq_of_id_eq {docs : List Doc}
    (hpair : List.Pairwise (fun a b : Doc => a.id ≠ b.id) docs)
    {a b : Doc} (ha : a ∈ docs) (hb : b ∈ docs) (h : a.id = b.id) : a = b := by
  by_contra hne
  obtain ⟨⟨i, hi⟩, hgi⟩ := List.mem_iff_get.mp ha
  obtain ⟨⟨j, hj⟩, hgj⟩ := List.mem_iff_get.mp hb
  have hij : i ≠ j := by
    intro hh
    apply hne
    rw [← hgi, ← hgj]
    subst hh
    rfl
  have hids := ids_injective hpair hi hj hij
  rw [hgi, hgj] at hids
  exact hids h

/-! ### Nonnegativity of the encoder's output -/

theorem fit_getD_idf_nonneg (log : ℚ → ℚ) (hlog : ∀ x : ℚ, 1 ≤ x → 0 ≤ log x)
    (texts : List String) (w : String) :
    0 ≤ (alistGet? (SimpleEmbedder.fit log texts).idf w).getD 1 := by
  cases hg : alistGet? (SimpleEmbedder.fit log texts).idf w with
  | none => norm_num
  | some v =>
    rw [Option.getD_some]
    have hmem := alistGet?_eq_some_mem hg
    simp only [SimpleEmbedder.fit] at hmem
    obtain ⟨q, hq, hqe⟩ := List.mem_map.mp hmem
    obtain ⟨u, hu, hue⟩ := List.mem_map.mp hq
    have hv : v = log (((texts.length : ℚ) + 1) / ((q.2 : ℚ) + 1)) + 1 :=
      ((Prod.mk.injEq _ _ _ _).mp hqe).2.symm
    have hq2 : q.2 ≤ texts.length := by
      have hcount : q.2 = (texts.map fun d => dedupFirst (tokenize d)).countP
          fun s => decide (u ∈ s) := by
        rw [← hue]
      rw [hcount]
      calc (texts.map fun d => dedupFirst (tokenize d)).countP (fun s => decide (u ∈ s))
          ≤ (texts.map fun d => dedupFirst (tokenize d)).length := List.countP_le_length _
        _ = texts.length := List.length_map _ _
    have harg : (1 : ℚ) ≤ ((texts.length : ℚ) + 1) / ((q.2 : ℚ) + 1) := by
      rw [le_div_iff (by positivity), one_mul]
      have : (q.2 : ℚ) ≤ (texts.length : ℚ) := by exact_mod_cast hq2
      linarith
    have hlog0 := hlog _ harg
    rw [hv]
    linarith

theorem rawVec_nonneg (log : ℚ → ℚ) (hlog : ∀ x : ℚ, 1 ≤ x → 0 ≤ log x)
    (texts : List String) (ts : List String) :
    ∀ x ∈ (SimpleEmbedder.fit log texts).rawVec ts, 0 ≤ x := by
  intro x hx
  rw [rawVec_closed _ (fit_vocab_nodup log texts) ts] at hx
  obtain ⟨wd, hwd, rfl⟩ := List.mem_map.mp hx
  refine mul_nonneg (div_nonneg ?_ ?_) (fit_getD_idf_nonneg log hlog texts wd)
  · positivity
  · positivity

theorem encodeOne_nonneg (log sqrt : ℚ → ℚ) (hlog : ∀ x : ℚ, 1 ≤ x → 0 ≤ log x)
    (hsqrt : ∀ x : ℚ, 0 ≤ x → 0 ≤ sqrt x) (texts : List String) (text : String) :
    ∀ x ∈ (SimpleEmbedder.fit log texts).encodeOne sqrt text, 0 ≤ x := by
  intro x hx
  simp only [SimpleEmbedder.encodeOne, l2normalize] at hx
  obtain ⟨y, hy, rfl⟩ := List.mem_map.mp hx
  have hy0 : 0 ≤ y := rawVec_nonneg log hlog texts (tokenize text) y hy
  have hnorm : 0 ≤ sqrt (sumSq ((SimpleEmbedder.fit log texts).rawVec (tokenize text))) :=
    hsqrt _ (sumSq_nonneg _)
  by_cases hc : sqrt (sumSq ((SimpleEmbedder.fit log texts).rawVec (tokenize text))) = 0
  · rw [if_pos hc, div_one]
    exact hy0
  · rw [if_neg hc]
    exact div_nonneg hy0 hnorm

theorem dot_nonneg (u : List ℚ) : ∀ v : List ℚ, (∀ x ∈ u, 0 ≤ x) → (∀ x ∈ v, 0 ≤ x) →
    0 ≤ dot u v := by
  induction u with
  | nil => intro v _ _; simp [dot]
  | cons a u ih =>
    intro v hu hv
    cases v with
    | nil => simp [dot]
    | cons b v =>
      have h1 := ih v (fun x hx => hu x (List.mem_cons_of_mem a hx))
        (fun x hx => hv x (List.mem_cons_of_mem b hx))
      have hdot : dot (a :: u) (b :: v) = a * b + dot u v := by
        simp [dot]
      rw [hdot]
      exact add_nonneg (mul_nonneg (hu a (List.mem_cons_self a u))
        (hv b (List.mem_cons_self b v))) h1

/-! ### Claim C2 — `search` before any `add_documents` -/

/-- C2 (counterexample): on a fresh engine, `search` fails, but with the
`AttributeError` for the never-assigned `_vectors` attribute of the vector
store, not with a distinct `IndexNotBuilt` error — no such error value exists
anywhere in the code. -/
theorem c2_counterexample :
    (HybridSearchEngine.init (7/10)).search zeroLog oneSqrt "what is the policy" 5
        = Except.error (Err.attributeError "_vectors")
      ∧ Err.attributeError "_vectors" ≠ Err.indexNotBuilt :=
  ⟨rfl, by decide⟩

/-- C2 (amended): for every engine on which `add_documents` was never called,
and every query and `top_k`, `search` fails — but with the `AttributeError`
raised by reading the never-assigned `_vectors` attribute, not with a
distinct `IndexNotBuilt` error. -/
theorem c2_amended (log sqrt : ℚ → ℚ) (w : ℚ) (query : String) (topK : ℕ) :
    (HybridSearchEngine.init w).search log sqrt query topK
      = Except.error (Err.attributeError "_vectors") := rfl

/-! ### Claim C6 — `add_documents` with an empty list -/

/-- C6 (counterexample): `add_documents([])` on a fresh engine is not
rejected: it builds an index with an empty vocabulary, empty vector list and
empty inverted index, and a subsequent `search` succeeds with an empty result
list.  No `EmptyCorpus` error exists in the code. -/
theorem c6_counterexample :
    ((HybridSearchEngine.init (7/10)).addDocuments zeroLog oneSqrt []).vectorStore.embedder.vocab
        = []
      ∧ ((HybridSearchEngine.init (7/10)).addDocuments zeroLog oneSqrt []).vectorStore.vectors
        = some []
      ∧ ((HybridSearchEngine.init (7/10)).addDocuments zeroLog oneSqrt []).invertedIndex
        = some []
      ∧ ((HybridSearchEngine.init (7/10)).addDocuments zeroLog oneSqrt []).search
          zeroLog oneSqrt "returns" 5 = Except.ok [] :=
  ⟨rfl, rfl, rfl, rfl⟩

/-- C6 (amended): calling `add_documents` with an empty document list on any
engine is accepted rather than rejected: it builds the empty, vocabulary-less
index (empty vocabulary, no vectors, empty inverted index), and every
subsequent `search` returns an empty result list instead of an error. -/
theorem c6_amended (log sqrt : ℚ → ℚ) (eng : HybridSearchEngine) (query : String) (topK : ℕ) :
    (eng.addDocuments log sqrt []).vectorStore.embedder.vocab = []
      ∧ (eng.addDocuments log sqrt []).vectorStore.vectors = some []
      ∧ (eng.addDocuments log sqrt []).invertedIndex = some []
      ∧ (eng.addDocuments log sqrt []).search log sqrt query topK = Except.ok [] := by
  refine ⟨rfl, rfl, rfl, ?_⟩
  have hadd : eng.addDocuments log sqrt [] =
      { semanticWeight := eng.semanticWeight,
        vectorStore := ⟨⟨[], [], true⟩, [], some []⟩,
        documents := [], invertedIndex := some [] } := rfl
  rw [hadd]
  unfold HybridSearchEngine.search FAISSVectorStore.search FAISSVectorStore.queryVec
  simp only []
  have hq : SimpleEmbedder.encodeOne sqrt ⟨[], [], true⟩ query = [] := by
    unfold SimpleEmbedder.encodeOne l2normalize
    rw [rawVec_of_vocab_nil ⟨[], [], true⟩ rfl]
    rfl
  have hkw : keywordSearch log 0 [] query = [] := keywordSearch_inv_nil log 0 query
  simp [hq, hkw, bruteForceSearch, mergeSemantic, mergeKeyword, sortDesc]

/-! ### Claim C7 — vector dimensions are uniform, checked at add time -/

/-- C7: the vector store's `add_documents` derives every stored vector from
the single vocabulary fitted on the corpus, so all stored vectors share one
dimension (the vocabulary size); a mismatched-dimension vector can never be
stored, and `search` on an indexed engine always succeeds — no dimension
problem ever surfaces at query time.  (The spec's `DimensionMismatch` branch
is vacuous: the store's interface accepts no externally supplied vectors.) -/
theorem c7_uniform_dimension (log sqrt : ℚ → ℚ) (w : ℚ) (docs : List Doc) :
    (indexedEngine log sqrt w docs).vectorStore.vectors = some (corpusVectors log sqrt docs)
      ∧ (∀ v ∈ corpusVectors log sqrt docs, v.length = (corpusEmbedder log docs).vocab.length)
      ∧ ∀ (query : String) (topK : ℕ),
          (indexedEngine log sqrt w docs).search log sqrt query topK
            = Except.ok (hybridResults log sqrt w docs query topK) := by
  refine ⟨rfl, ?_, fun query topK => indexedEngine_search log sqrt w docs query topK⟩
  intro v hv
  unfold corpusVectors at hv
  obtain ⟨text, -, rfl⟩ := List.mem_map.mp hv
  exact length_encodeOne sqrt _ text

/-- C7 (witness): on the one-document corpus `["a"]` the stored vector is
`[1]`, whose length is the vocabulary size 1, and a concrete search succeeds. -/
theorem c7_uniform_dimension_witness :
    ([(1 : ℚ)].length = (corpusEmbedder zeroLog [⟨none, "a"⟩]).vocab.length)
      ∧ (indexedEngine zeroLog oneSqrt (7/10) [⟨none, "a"⟩]).search zeroLog oneSqrt "a" 3
          = Except.ok (hybridResults zeroLog oneSqrt (7/10) [⟨none, "a"⟩] "a" 3) :=
  ⟨(c7_uniform_dimension zeroLog oneSqrt (7/10) [⟨none, "a"⟩]).2.1 [(1 : ℚ)]
      (by
        have ht : tokenize "a" = ["a"] := rfl
        norm_num +decide [corpusVectors, corpusEmbedder, SimpleEmbedder.fit,
          SimpleEmbedder.encodeOne, SimpleEmbedder.rawVec, vecWrite, l2normalize, sumSq, dedupFirst,
          counterNat, idxOf?, alistGet?, ht, zeroLog, oneSqrt]),
   (c7_uniform_dimension zeroLog oneSqrt (7/10) [⟨none, "a"⟩]).2.2 "a" 3⟩

/-! ### Claim C3 — the top-k contract -/

set_option maxRecDepth 8000 in
/-- C3 (counterexample): on the three-document corpus `c / b / d` in which
only the middle document carries an explicit id, the query `"b b c"` with
`top_k = 5` returns 4 results, not `min(top_k, N) = min 5 3 = 3`: the
semantic merge keys entries by enumeration rank while the keyword merge keys
them by corpus position, so the id-carrying document occupies a string key
and corpus position 2 re-enters under a fresh integer key. -/
theorem c3_counterexample :
    (hybridResults zeroLog oneSqrt (7/10) [⟨none, "c"⟩, ⟨some "a", "b"⟩, ⟨none, "d"⟩]
        "b b c" 5).length = 4
    ∧ min 5 ([(⟨none, "c"⟩ : Doc), ⟨some "a", "b"⟩, ⟨none, "d"⟩] : List Doc).length = 3 := by
  constructor
  · have ht1 : tokenize "c" = ["c"] := rfl
    have ht2 : tokenize "b" = ["b"] := rfl
    have ht3 : tokenize "d" = ["d"] := rfl
    have htq : tokenize "b b c" = ["b", "b", "c"] := rfl
    have hfit : SimpleEmbedder.fit zeroLog ["c", "b", "d"]
        = ⟨["c", "b", "d"], [("c", 1), ("b", 1), ("d", 1)], true⟩ := by
      norm_num +decide [SimpleEmbedder.fit, ht1, ht2, ht3, dedupFirst,
        zeroLog, List.countP, List.countP.go]
    have hrawcl := rawVec_closed (⟨["c", "b", "d"], [("c", 1), ("b", 1), ("d", 1)], true⟩ :
      SimpleEmbedder) (by decide)
    have hge0 : ([⟨none, "c"⟩, ⟨some "a", "b"⟩, ⟨none, "d"⟩] : List Doc).getD 0 defaultDoc
        = ⟨none, "c"⟩ := rfl
    have hge1 : ([⟨none, "c"⟩, ⟨some "a", "b"⟩, ⟨none, "d"⟩] : List Doc).getD 1 defaultDoc
        = ⟨some "a", "b"⟩ := rfl
    have hge2 : ([⟨none, "c"⟩, ⟨some "a", "b"⟩, ⟨none, "d"⟩] : List Doc).getD 2 defaultDoc
        = ⟨none, "d"⟩ := rfl
    norm_num +decide [hybridResults, hybridMerged, hybridSemanticResults, hybridKeywordScores,
      hfit, hrawcl, hge0, hge1, hge2, corpusVectors, corpusEmbedder, bruteForceSearch,
      SimpleEmbedder.encodeOne, l2normalize, sumSq, dot, counterNat, dedupFirst, idxOf?,
      alistGet?, ht1, ht2, ht3, htq, keywordSearch, keywordAccum, keywordStep, counterIncr,
      maxVal, buildInvertedIndex, alistPush, mergeSemantic, mergeKeyword, mergeKeywordStep,
      alistUpd, fuseEntry, sortDesc, insertDesc, round4, round_eq, zeroLog, oneSqrt, List.enum,
      List.enumFrom, docKey, List.count_cons, List.count_nil]
  · rfl

/-- C3 (amended): under the spec's id discipline (ids absent everywhere, or
explicit and pairwise distinct everywhere) `search` on an indexed corpus of
size `N` returns exactly `min(top_k, N)` results; the results are sorted by
`relevance_score` descending, and ties are broken by the document's
first-seen order in the merge — the sort moves no element across an
equal-scored one, so the same-score entries of the output are exactly the
same-score entries of the merged table in merge order. -/
theorem c3_topk_contract (log sqrt : ℚ → ℚ) (w : ℚ) (docs : List Doc) (query : String)
    (topK : ℕ) (hid : idDiscipline docs) :
    (hybridResults log sqrt w docs query topK).length = min topK docs.length
    ∧ List.Pairwise (fun a b : SearchResult => b.relevanceScore ≤ a.relevanceScore)
        (hybridResults log sqrt w docs query topK)
    ∧ ∀ c : ℚ,
        (sortDesc (fun r : SearchResult => r.relevanceScore)
            ((hybridMerged log sqrt docs query topK).map fun p => fuseEntry w p.2)).filter
          (fun r => decide (r.relevanceScore = c))
        = ((hybridMerged log sqrt docs query topK).map fun p => fuseEntry w p.2).filter
          (fun r => decide (r.relevanceScore = c)) := by
  refine ⟨?_, ?_, ?_⟩
  · have hform : (hybridResults log sqrt w docs query topK).length
        = min topK (hybridMerged log sqrt docs query topK).length := by
      unfold hybridResults
      rw [List.length_take, length_sortDesc, List.length_map]
    have hndk := hybrid_semKeys_nodup log sqrt docs query topK hid
    have hsemlen : (mergeSemantic (hybridSemanticResults log sqrt docs query topK)).length
        = min (topK * 2) docs.length := by
      rw [length_mergeSemantic _ hndk, length_hybridSemanticResults]
    rcases Nat.le_total docs.length (topK * 2) with hN | hN
    · have hcov := kwKeys_covered log sqrt docs query topK hid hN
      have hkeys := keys_mergeKeyword_of_covered docs
        (hybridKeywordScores log docs query)
        (mergeSemantic (hybridSemanticResults log sqrt docs query topK)) hcov
      have hlen : (hybridMerged log sqrt docs query topK).length
          = (mergeSemantic (hybridSemanticResults log sqrt docs query topK)).length := by
        have h1 := congrArg List.length hkeys
        rw [List.length_map, List.length_map] at h1
        exact h1
      rw [hform, hlen, hsemlen, min_eq_right hN]
    · have hge : (mergeSemantic (hybridSemanticResults log sqrt docs query topK)).length
          ≤ (hybridMerged log sqrt docs query topK).length :=
        length_mergeKeyword_ge docs (hybridKeywordScores log docs query) _
      have htk : topK ≤ (hybridMerged log sqrt docs query topK).length := by
        rw [hsemlen, min_eq_left hN] at hge
        omega
      have ht2 : topK ≤ docs.length := le_trans (by omega) hN
      rw [hform, min_eq_left htk, min_eq_left ht2]
  · exact List.Pairwise.sublist (List.take_sublist _ _)
      (pairwise_sortDesc (fun r : SearchResult => r.relevanceScore) _)
  · intro c
    exact filter_sortDesc (fun r : SearchResult => r.relevanceScore) c _

/-- C3 (witness): the amended contract instantiated on the one-document
id-less corpus `"a"`, query `"a"`, `top_k = 3`. -/
theorem c3_topk_contract_witness :
    idDiscipline [(⟨none, "a"⟩ : Doc)]
    ∧ ((hybridResults zeroLog oneSqrt (7/10) [⟨none, "a"⟩] "a" 3).length
          = min 3 ([(⟨none, "a"⟩ : Doc)] : List Doc).length
        ∧ List.Pairwise (fun a b : SearchResult => b.relevanceScore ≤ a.relevanceScore)
            (hybridResults zeroLog oneSqrt (7/10) [⟨none, "a"⟩] "a" 3)
        ∧ ∀ c : ℚ,
            (sortDesc (fun r : SearchResult => r.relevanceScore)
                ((hybridMerged zeroLog oneSqrt [⟨none, "a"⟩] "a" 3).map
                  fun p => fuseEntry (7/10) p.2)).filter
              (fun r => decide (r.relevanceScore = c))
            = ((hybridMerged zeroLog oneSqrt [⟨none, "a"⟩] "a" 3).map
                fun p => fuseEntry (7/10) p.2).filter
              (fun r => decide (r.relevanceScore = c))) :=
  ⟨Or.inl (by decide),
   c3_topk_contract zeroLog oneSqrt (7/10) [⟨none, "a"⟩] "a" 3 (Or.inl (by decide))⟩

/-! ### Claim C9 — rounding, and what the sort actually compares -/

set_option maxRecDepth 8000 in
/-- C9 (counterexample): two results whose exact fused scores differ by less
than the rounding granularity `1/10000` need NOT compare equal: on the corpus
`aa / bb / bb` with `semantic_weight = 0`, query `"aa bb"` and a logarithm
value making the two exact fused scores `100000/100007` and `1` (difference
`7/100007 < 1/10000`), the scores straddle a rounding boundary, the rounded
values `9999/10000` and `1` differ, and the first-merged entry is sorted
behind both later ones instead of keeping its merge-insertion place. -/
theorem c9_counterexample :
    ((hybridMerged log9 oneSqrt [⟨none, "aa"⟩, ⟨none, "bb"⟩, ⟨none, "bb"⟩] "aa bb" 3).map
        fun p => (0 : ℚ) * p.2.semanticScore + (1 - 0) * p.2.keywordScore)
      = [100000/100007, 1, 1]
    ∧ (1 : ℚ) - 100000/100007 < 1/10000
    ∧ ((hybridResults log9 oneSqrt 0 [⟨none, "aa"⟩, ⟨none, "bb"⟩, ⟨none, "bb"⟩]
          "aa bb" 3).map fun r => r.relevanceScore) = [1, 1, 9999/10000]
    ∧ round4 (100000/100007) ≠ round4 1 := by
  have ht1 : tokenize "aa" = ["aa"] := rfl
  have ht2 : tokenize "bb" = ["bb"] := rfl
  have htq : tokenize "aa bb" = ["aa", "bb"] := rfl
  have hfit : SimpleEmbedder.fit log9 ["aa", "bb", "bb"]
      = ⟨["aa", "bb"], [("aa", 1), ("bb", 100007/100000)], true⟩ := by
    norm_num +decide [SimpleEmbedder.fit, ht1, ht2, dedupFirst,
      log9, List.countP, List.countP.go]
  have hrawcl := rawVec_closed (⟨["aa", "bb"], [("aa", 1), ("bb", 100007/100000)], true⟩ :
    SimpleEmbedder) (by decide)
  have hge0 : ([⟨none, "aa"⟩, ⟨none, "bb"⟩, ⟨none, "bb"⟩] : List Doc).getD 0 defaultDoc
      = ⟨none, "aa"⟩ := rfl
  have hge1 : ([⟨none, "aa"⟩, ⟨none, "bb"⟩, ⟨none, "bb"⟩] : List Doc).getD 1 defaultDoc
      = ⟨none, "bb"⟩ := rfl
  have hge2 : ([⟨none, "aa"⟩, ⟨none, "bb"⟩, ⟨none, "bb"⟩] : List Doc).getD 2 defaultDoc
      = ⟨none, "bb"⟩ := rfl
  refine ⟨?_, by norm_num, ?_, by norm_num [round4, round_eq]⟩
  all_goals
    norm_num +decide [hybridResults, hybridMerged, hybridSemanticResults, hybridKeywordScores,
      hfit, hrawcl, hge0, hge1, hge2, corpusVectors, corpusEmbedder, bruteForceSearch,
      SimpleEmbedder.encodeOne, l2normalize, sumSq, dot, counterNat, dedupFirst, idxOf?,
      alistGet?, ht1, ht2, htq, keywordSearch, keywordAccum, keywordStep, counterIncr,
      maxVal, buildInvertedIndex, alistPush, mergeSemantic, mergeKeyword, mergeKeywordStep,
      alistUpd, fuseEntry, sortDesc, insertDesc, round4, round_eq, log9, oneSqrt, List.enum,
      List.enumFrom, docKey, List.count_cons, List.count_nil]

/-- C9 (amended): every returned result is the fusion of a merged entry, with
`relevance_score` the 4-place rounding of `semantic_weight * semantic_score +
keyword_weight * keyword_score` computed from that entry's (unrounded-at-
fusion-time) component scores, and `semantic_score` / `keyword_score` their
4-place roundings; the descending sort compares the ROUNDED relevance values
(they are the sort key), and only results with EQUAL rounded values keep
their merge-insertion order — exact fused scores that differ by less than
the granularity may still round differently and be reordered. -/
theorem c9_amended (log sqrt : ℚ → ℚ) (w : ℚ) (docs : List Doc) (query : String)
    (topK : ℕ) :
    (∀ r ∈ hybridResults log sqrt w docs query topK,
      ∃ p ∈ hybridMerged log sqrt docs query topK,
        r = fuseEntry w p.2
        ∧ r.relevanceScore
            = round4 (w * p.2.semanticScore + (1 - w) * p.2.keywordScore)
        ∧ r.semanticScore = round4 p.2.semanticScore
        ∧ r.keywordScore = round4 p.2.keywordScore)
    ∧ List.Pairwise (fun a b : SearchResult => b.relevanceScore ≤ a.relevanceScore)
        (hybridResults log sqrt w docs query topK)
    ∧ ∀ c : ℚ,
        (sortDesc (fun r : SearchResult => r.relevanceScore)
            ((hybridMerged log sqrt docs query topK).map fun p => fuseEntry w p.2)).filter
          (fun r => decide (r.relevanceScore = c))
        = ((hybridMerged log sqrt docs query topK).map fun p => fuseEntry w p.2).filter
          (fun r => decide (r.relevanceScore = c)) := by
  refine ⟨?_, ?_, ?_⟩
  · intro r hr
    have h1 : r ∈ sortDesc (fun r : SearchResult => r.relevanceScore)
        ((hybridMerged log sqrt docs query topK).map fun p => fuseEntry w p.2) :=
      (List.take_sublist _ _).mem hr
    have h2 := (perm_sortDesc _ _).mem_iff.mp h1
    obtain ⟨p, hp, rfl⟩ := List.mem_map.mp h2
    exact ⟨p, hp, rfl, rfl, rfl, rfl⟩
  · exact List.Pairwise.sublist (List.take_sublist _ _)
      (pairwise_sortDesc (fun r : SearchResult => r.relevanceScore) _)
  · intro c
    exact filter_sortDesc (fun r : SearchResult => r.relevanceScore) c _

/-! ### Claim C1 — merging by document identity -/

theorem hybridSemanticResults_fst_mem (log sqrt : ℚ → ℚ) (docs : List Doc) (query : String)
    (topK : ℕ) : ∀ r ∈ hybridSemanticResults log sqrt docs query topK, r.1 ∈ docs := by
  intro r hr
  simp only [hybridSemanticResults, bruteForceSearch] at hr
  obtain ⟨p, hp, rfl⟩ := List.mem_map.mp hr
  have hlt := bruteForce_take_snd_lt _ _ _ p hp
  rw [corpusVectors_length] at hlt
  exact getD_mem hlt _

set_option maxRecDepth 8000 in
/-- C1 (counterexample): with no explicit ids the merge is NOT by document
identity: on the corpus `apple / banana / zebra` with query `"zebra"` and
`top_k = 1`, the semantic pass keys the zebra document under its rank 0 while
the keyword pass keys it under its corpus position 2, so the very same
document occupies two distinct merged entries (one with its keyword score
zeroed, one with its semantic score zeroed) — refuting the claim's "holds
whether or not the documents carry an explicit id". -/
theorem c1_counterexample :
    hybridMerged zeroLog oneSqrt [⟨none, "apple"⟩, ⟨none, "banana"⟩, ⟨none, "zebra"⟩]
        "zebra" 1
      = [(Sum.inl 0, ⟨⟨none, "zebra"⟩, 1, 0⟩),
         (Sum.inl 1, ⟨⟨none, "apple"⟩, 0, 0⟩),
         (Sum.inl 2, ⟨⟨none, "zebra"⟩, 0, 1⟩)]
    ∧ ¬ (((hybridMerged zeroLog oneSqrt
            [⟨none, "apple"⟩, ⟨none, "banana"⟩, ⟨none, "zebra"⟩] "zebra" 1).map
          fun q => q.2.document).Nodup) := by
  have ht1 : tokenize "apple" = ["apple"] := rfl
  have ht2 : tokenize "banana" = ["banana"] := rfl
  have ht3 : tokenize "zebra" = ["zebra"] := rfl
  have hfit : SimpleEmbedder.fit zeroLog ["apple", "banana", "zebra"]
      = ⟨["apple", "banana", "zebra"],
         [("apple", 1), ("banana", 1), ("zebra", 1)], true⟩ := by
    norm_num +decide [SimpleEmbedder.fit, ht1, ht2, ht3, dedupFirst,
      zeroLog, List.countP, List.countP.go]
  have hrawcl := rawVec_closed (⟨["apple", "banana", "zebra"],
    [("apple", 1), ("banana", 1), ("zebra", 1)], true⟩ : SimpleEmbedder) (by decide)
  have hge0 : ([⟨none, "apple"⟩, ⟨none, "banana"⟩, ⟨none, "zebra"⟩] : List Doc).getD 0
      defaultDoc = ⟨none, "apple"⟩ := rfl
  have hge1 : ([⟨none, "apple"⟩, ⟨none, "banana"⟩, ⟨none, "zebra"⟩] : List Doc).getD 1
      defaultDoc = ⟨none, "banana"⟩ := rfl
  have hge2 : ([⟨none, "apple"⟩, ⟨none, "banana"⟩, ⟨none, "zebra"⟩] : List Doc).getD 2
      defaultDoc = ⟨none, "zebra"⟩ := rfl
  have h : hybridMerged zeroLog oneSqrt
      [⟨none, "apple"⟩, ⟨none, "banana"⟩, ⟨none, "zebra"⟩] "zebra" 1
      = [(Sum.inl 0, ⟨⟨none, "zebra"⟩, 1, 0⟩),
         (Sum.inl 1, ⟨⟨none, "apple"⟩, 0, 0⟩),
         (Sum.inl 2, ⟨⟨none, "zebra"⟩, 0, 1⟩)] := by
    norm_num +decide [hybridMerged, hybridSemanticResults, hybridKeywordScores,
      hfit, hrawcl, hge0, hge1, hge2, corpusVectors, corpusEmbedder, bruteForceSearch,
      SimpleEmbedder.encodeOne, l2normalize, sumSq, dot, counterNat, dedupFirst, idxOf?,
      alistGet?, ht1, ht2, ht3, keywordSearch, keywordAccum, keywordStep, counterIncr,
      maxVal, buildInvertedIndex, alistPush, mergeSemantic, mergeKeyword, mergeKeywordStep,
      alistUpd, sortDesc, insertDesc, round4, round_eq, zeroLog, oneSqrt, List.enum,
      List.enumFrom, docKey, List.count_cons, List.count_nil]
  refine ⟨h, ?_⟩
  rw [h]
  decide

/-- C1 (amended): when every corpus document carries an explicit id and the
ids are pairwise distinct, the merge IS by document identity: each distinct
document occupies at most one merged entry; an entry whose document the
semantic pass did not return has semantic score `0`; an entry whose document
the keyword pass did not score has keyword score `0`; and no document from
either candidate set is dropped from the merge. -/
theorem c1_amended (log sqrt : ℚ → ℚ) (docs : List Doc) (query : String) (topK : ℕ)
    (hsome : ∀ d ∈ docs, d.id ≠ none)
    (hpair : List.Pairwise (fun a b : Doc => a.id ≠ b.id) docs) :
    (((hybridMerged log sqrt docs query topK).map fun q => q.2.document).Nodup)
    ∧ (∀ q ∈ hybridMerged log sqrt docs query topK,
        q.2.document ∉ (hybridSemanticResults log sqrt docs query topK).map Prod.fst →
        q.2.semanticScore = 0)
    ∧ (∀ q ∈ hybridMerged log sqrt docs query topK,
        (∀ p ∈ hybridKeywordScores log docs query,
          docs.getD p.1 defaultDoc ≠ q.2.document) →
        q.2.keywordScore = 0)
    ∧ (∀ r ∈ hybridSemanticResults log sqrt docs query topK,
        ∃ q ∈ hybridMerged log sqrt docs query topK, q.2.document = r.1)
    ∧ (∀ p ∈ hybridKeywordScores log docs query,
        ∃ q ∈ hybridMerged log sqrt docs query topK,
          q.2.document = docs.getD p.1 defaultDoc) := by
  have hid : idDiscipline docs := Or.inr ⟨hsome, hpair⟩
  have hnd := hybrid_semKeys_nodup log sqrt docs query topK hid
  have hM0 := mergeSemantic_eq (hybridSemanticResults log sqrt docs query topK) hnd
  have hfstmem := hybridSemanticResults_fst_mem log sqrt docs query topK
  have hinv : ∀ q ∈ hybridMerged log sqrt docs query topK,
      q.2.document ∈ docs
      ∧ (∃ s, q.1 = Sum.inr s ∧ q.2.document.id = some s)
      ∧ (q.2.document ∉ (hybridSemanticResults log sqrt docs query topK).map Prod.fst →
          q.2.semanticScore = 0)
      ∧ ((∀ p ∈ hybridKeywordScores log docs query,
            docs.getD p.1 defaultDoc ≠ q.2.document) → q.2.keywordScore = 0) := by
    refine mergeKeyword_invariant docs _ (hybridKeywordScores log docs query) ?_ ?_ _ ?_
    · intro p hp e hPe
      obtain ⟨hedoc, ⟨s, hkey, hesid⟩, hsem0, hkw0⟩ := hPe
      have hplt : p.1 < docs.length := hybridKeywordScores_fst_lt log docs query p hp
      have hpmem : docs.getD p.1 defaultDoc ∈ docs := getD_mem hplt _
      cases hcase : (docs.getD p.1 defaultDoc).id with
      | none => exact absurd hcase (hsome _ hpmem)
      | some sp =>
        have hkey2 : docKey (docs.getD p.1 defaultDoc) p.1 = Sum.inr sp :=
          docKey_of_some hcase p.1
        have hss : sp = s := Sum.inr_injective (hkey2.symm.trans hkey)
        have hdoc : docs.getD p.1 defaultDoc = e.document :=
          doc_eq_of_id_eq hpair hpmem hedoc (by rw [hcase, hesid, hss])
        refine ⟨hedoc, ⟨s, hkey, hesid⟩, hsem0, ?_⟩
        intro hyp
        exact absurd hdoc (hyp p hp)
    · intro p hp
      have hplt : p.1 < docs.length := hybridKeywordScores_fst_lt log docs query p hp
      have hpmem : docs.getD p.1 defaultDoc ∈ docs := getD_mem hplt _
      cases hcase : (docs.getD p.1 defaultDoc).id with
      | none => exact absurd hcase (hsome _ hpmem)
      | some sp =>
        refine ⟨hpmem, ⟨sp, docKey_of_some hcase p.1, rfl⟩, fun _ => rfl, ?_⟩
        intro hyp
        exact absurd rfl (hyp p hp)
    · intro q hq
      rw [hM0] at hq
      obtain ⟨en, hen, rfl⟩ := List.mem_map.mp hq
      have hen2 : en.2 ∈ hybridSemanticResults log sqrt docs query topK := by
        have h1 := List.mem_map_of_mem Prod.snd hen
        rwa [List.enum_map_snd] at h1
      have hdmem : en.2.1 ∈ docs := hfstmem _ hen2
      cases hcase : en.2.1.id with
      | none => exact absurd hcase (hsome _ hdmem)
      | some sp =>
        refine ⟨hdmem, ⟨sp, docKey_of_some hcase en.1, rfl⟩, ?_, fun _ => rfl⟩
        intro hyp
        exact absurd (List.mem_map_of_mem Prod.fst hen2) hyp
  have kn : ((hybridMerged log sqrt docs query topK).map Prod.fst).Nodup := by
    refine keys_nodup_mergeKeyword docs (hybridKeywordScores log docs query) _ ?_
    rw [keys_mergeSemantic _ hnd]
    exact hnd
  refine ⟨?_, fun q hq => (hinv q hq).2.2.1, fun q hq => (hinv q hq).2.2.2, ?_, ?_⟩
  · have hinj := List.inj_on_of_nodup_map kn
    have hmnd : (hybridMerged log sqrt docs query topK).Nodup := kn.of_map
    refine List.Nodup.map_on ?_ hmnd
    intro x hx y hy hxy
    obtain ⟨-, ⟨sx, hkx, hix⟩, -, -⟩ := hinv x hx
    obtain ⟨-, ⟨sy, hky, hiy⟩, -, -⟩ := hinv y hy
    refine hinj hx hy ?_
    rw [hkx, hky]
    have hs : some sx = some sy := by rw [← hix, ← hiy, hxy]
    rw [Option.some.inj hs]
  · intro r hr
    obtain ⟨en, hen, hen2⟩ := List.mem_map.mp
      (show r ∈ (hybridSemanticResults log sqrt docs query topK).enum.map Prod.snd by
        rw [List.enum_map_snd]
        exact hr)
    have hkeymem : docKey r.1 en.1
        ∈ (mergeSemantic (hybridSemanticResults log sqrt docs query topK)).map Prod.fst := by
      rw [keys_mergeSemantic _ hnd]
      refine List.mem_map.mpr ⟨en, hen, ?_⟩
      rw [hen2]
    have hmerged := keys_subset_mergeKeyword docs (hybridKeywordScores log docs query)
      _ _ hkeymem
    obtain ⟨q, hq, hqk⟩ := List.mem_map.mp hmerged
    refine ⟨q, hq, ?_⟩
    obtain ⟨hqdoc, ⟨s, hks, hqid⟩, -, -⟩ := hinv q hq
    have hrmem : r.1 ∈ docs := hfstmem r hr
    cases hcase : r.1.id with
    | none => exact absurd hcase (hsome _ hrmem)
    | some sr =>
      have hkey2 : docKey r.1 en.1 = Sum.inr sr := docKey_of_some hcase en.1
      have hss : s = sr := Sum.inr_injective (by rw [← hks, hqk, hkey2])
      exact doc_eq_of_id_eq hpair hqdoc hrmem (by rw [hqid, hcase, hss])
  · intro p hp
    have hkm := key_mem_mergeKeyword docs (hybridKeywordScores log docs query)
      (mergeSemantic (hybridSemanticResults log sqrt docs query topK)) p hp
    obtain ⟨q, hq, hqk⟩ := List.mem_map.mp hkm
    refine ⟨q, hq, ?_⟩
    obtain ⟨hqdoc, ⟨s, hks, hqid⟩, -, -⟩ := hinv q hq
    have hplt : p.1 < docs.length := hybridKeywordScores_fst_lt log docs query p hp
    have hpmem : docs.getD p.1 defaultDoc ∈ docs := getD_mem hplt _
    cases hcase : (docs.getD p.1 defaultDoc).id with
    | none => exact absurd hcase (hsome _ hpmem)
    | some sp =>
      have hkey2 : docKey (docs.getD p.1 defaultDoc) p.1 = Sum.inr sp :=
        docKey_of_some hcase p.1
      have hss : s = sp := Sum.inr_injective (by rw [← hks, hqk, hkey2])
      exact doc_eq_of_id_eq hpair hqdoc hpmem (by rw [hqid, hcase, hss])

/-- C1 (witness): the amended merge contract instantiated on a two-document
corpus with distinct explicit ids. -/
theorem c1_amended_witness :
    (∀ d ∈ ([⟨some "x", "a"⟩, ⟨some "y", "b"⟩] : List Doc), d.id ≠ none)
    ∧ List.Pairwise (fun a b : Doc => a.id ≠ b.id)
        ([⟨some "x", "a"⟩, ⟨some "y", "b"⟩] : List Doc)
    ∧ ((((hybridMerged zeroLog oneSqrt [⟨some "x", "a"⟩, ⟨some "y", "b"⟩] "a" 2).map
          fun q => q.2.document).Nodup)
      ∧ (∀ q ∈ hybridMerged zeroLog oneSqrt [⟨some "x", "a"⟩, ⟨some "y", "b"⟩] "a" 2,
          q.2.document ∉ (hybridSemanticResults zeroLog oneSqrt
            [⟨some "x", "a"⟩, ⟨some "y", "b"⟩] "a" 2).map Prod.fst →
          q.2.semanticScore = 0)
      ∧ (∀ q ∈ hybridMerged zeroLog oneSqrt [⟨some "x", "a"⟩, ⟨some "y", "b"⟩] "a" 2,
          (∀ p ∈ hybridKeywordScores zeroLog [⟨some "x", "a"⟩, ⟨some "y", "b"⟩] "a",
            ([⟨some "x", "a"⟩, ⟨some "y", "b"⟩] : List Doc).getD p.1 defaultDoc
              ≠ q.2.document) →
          q.2.keywordScore = 0)
      ∧ (∀ r ∈ hybridSemanticResults zeroLog oneSqrt
            [⟨some "x", "a"⟩, ⟨some "y", "b"⟩] "a" 2,
          ∃ q ∈ hybridMerged zeroLog oneSqrt [⟨some "x", "a"⟩, ⟨some "y", "b"⟩] "a" 2,
            q.2.document = r.1)
      ∧ (∀ p ∈ hybridKeywordScores zeroLog [⟨some "x", "a"⟩, ⟨some "y", "b"⟩] "a",
          ∃ q ∈ hybridMerged zeroLog oneSqrt [⟨some "x", "a"⟩, ⟨some "y", "b"⟩] "a" 2,
            q.2.document
              = ([⟨some "x", "a"⟩, ⟨some "y", "b"⟩] : List Doc).getD p.1 defaultDoc)) :=
  ⟨by decide, by decide,
   c1_amended zeroLog oneSqrt [⟨some "x", "a"⟩, ⟨some "y", "b"⟩] "a" 2
     (by decide) (by decide)⟩

/-! ### Claim C4 — fusion edge cases -/

set_option maxRecDepth 8000 in
/-- C4 (counterexample): `semantic_weight = 0` does NOT reproduce the pure
keyword ranking.  On the corpus `cat dog / cat` with query `"cat"` both
documents get keyword score 1; the keyword mapping lists `cat dog` first, so
the spec's keyword ranking (stable descending sort of the keyword scores) is
`[cat dog, cat]` — but the engine's `w = 0` output enumerates the merged
table in semantic-candidate order and returns `[cat, cat dog]`. -/
theorem c4_counterexample :
    ((hybridResults zeroLog oneSqrt 0 [⟨none, "cat dog"⟩, ⟨none, "cat"⟩] "cat" 2).map
        fun r => r.document) = [⟨none, "cat"⟩, ⟨none, "cat dog"⟩]
    ∧ keywordRanking zeroLog [⟨none, "cat dog"⟩, ⟨none, "cat"⟩] "cat"
      = [⟨none, "cat dog"⟩, ⟨none, "cat"⟩]
    ∧ ([(⟨none, "cat"⟩ : Doc), ⟨none, "cat dog"⟩]
        ≠ [(⟨none, "cat dog"⟩ : Doc), ⟨none, "cat"⟩]) := by
  have ht1 : tokenize "cat dog" = ["cat", "dog"] := rfl
  have ht2 : tokenize "cat" = ["cat"] := rfl
  have hfit : SimpleEmbedder.fit zeroLog ["cat dog", "cat"]
      = ⟨["cat", "dog"], [("cat", 1), ("dog", 1)], true⟩ := by
    norm_num +decide [SimpleEmbedder.fit, ht1, ht2, dedupFirst,
      zeroLog, List.countP, List.countP.go]
  have hrawcl := rawVec_closed (⟨["cat", "dog"], [("cat", 1), ("dog", 1)], true⟩ :
    SimpleEmbedder) (by decide)
  have hge0 : ([⟨none, "cat dog"⟩, ⟨none, "cat"⟩] : List Doc).getD 0 defaultDoc
      = ⟨none, "cat dog"⟩ := rfl
  have hge1 : ([⟨none, "cat dog"⟩, ⟨none, "cat"⟩] : List Doc).getD 1 defaultDoc
      = ⟨none, "cat"⟩ := rfl
  refine ⟨?_, ?_, by decide⟩
  all_goals
    norm_num +decide [keywordRanking, hybridResults, hybridMerged, hybridSemanticResults,
      hybridKeywordScores, hfit, hrawcl, hge0, hge1, corpusVectors, corpusEmbedder,
      bruteForceSearch, SimpleEmbedder.encodeOne, l2normalize, sumSq, dot, counterNat,
      dedupFirst, idxOf?, alistGet?, ht1, ht2, keywordSearch, keywordAccum, keywordStep,
      counterIncr, maxVal, buildInvertedIndex, alistPush, mergeSemantic, mergeKeyword,
      mergeKeywordStep, alistUpd, fuseEntry, sortDesc, insertDesc, round4, round_eq, zeroLog,
      oneSqrt, List.enum, List.enumFrom, docKey, List.count_cons, List.count_nil]

/-- C4 (amended): the `semantic_weight = 1.0` half of the claim holds under
the spec's id discipline, granted the two facts true of the real `math.log`
and `math.sqrt` (log is nonnegative on arguments `≥ 1`, sqrt is nonnegative
on nonnegative arguments — these make all similarity scores nonnegative):
the `w = 1` search returns exactly the documents of the pure brute-force
vector search over the same corpus, in the same order. -/
theorem c4_amended (log sqrt : ℚ → ℚ) (docs : List Doc) (query : String) (topK : ℕ)
    (hlog : ∀ x : ℚ, 1 ≤ x → 0 ≤ log x) (hsqrt : ∀ x : ℚ, 0 ≤ x → 0 ≤ sqrt x)
    (hid : idDiscipline docs) :
    (hybridResults log sqrt 1 docs query topK).map (fun r => r.document)
      = (bruteForceSearch docs (corpusVectors log sqrt docs)
          ((corpusEmbedder log docs).encodeOne sqrt query) topK).map Prod.fst := by
  have hnd := hybrid_semKeys_nodup log sqrt docs query topK hid
  have hM0 := mergeSemantic_eq (hybridSemanticResults log sqrt docs query topK) hnd
  obtain ⟨ext, hext⟩ := semProj_mergeKeyword docs (hybridKeywordScores log docs query)
    (mergeSemantic (hybridSemanticResults log sqrt docs query topK))
  -- all vector components, hence all similarity scores, are nonnegative
  have hvq : ∀ x ∈ (corpusEmbedder log docs).encodeOne sqrt query, 0 ≤ x :=
    encodeOne_nonneg log sqrt hlog hsqrt _ query
  have hvv : ∀ v ∈ corpusVectors log sqrt docs, ∀ x ∈ v, 0 ≤ x := by
    intro v hv
    obtain ⟨t, -, rfl⟩ := List.mem_map.mp hv
    exact encodeOne_nonneg log sqrt hlog hsqrt _ t
  have hscore : ∀ p ∈ hybridSemanticResults log sqrt docs query topK, 0 ≤ p.2 := by
    intro p hp
    simp only [hybridSemanticResults, bruteForceSearch] at hp
    obtain ⟨r, hr, rfl⟩ := List.mem_map.mp hp
    have hr2 : r ∈ sortDesc (fun s : ℚ × ℕ => s.1) ((corpusVectors log sqrt docs).enum.map
        fun s => (dot ((corpusEmbedder log docs).encodeOne sqrt query) s.2, s.1)) :=
      (List.take_sublist _ _).mem hr
    have hr3 := (perm_sortDesc _ _).mem_iff.mp hr2
    obtain ⟨s, hs, rfl⟩ := List.mem_map.mp hr3
    have hs2 : s.2 ∈ corpusVectors log sqrt docs := by
      have h1 := List.mem_map_of_mem Prod.snd hs
      rwa [List.enum_map_snd] at h1
    exact round4_nonneg (dot_nonneg _ _ hvq (hvv s.2 hs2))
  -- with w = 1 the fused sort key is the rounded semantic component
  have hfuse1 : ∀ e : MergedEntry,
      (fuseEntry 1 e).relevanceScore = round4 e.semanticScore := by
    intro e
    show round4 ((1 : ℚ) * e.semanticScore + (1 - 1) * e.keywordScore)
      = round4 e.semanticScore
    rw [show (1 : ℚ) * e.semanticScore + (1 - 1) * e.keywordScore = e.semanticScore from
      by ring]
  -- the semantic-score projection of the merged table
  have h2sem : (mergeSemantic (hybridSemanticResults log sqrt docs query topK)).map
      (fun q => q.2.semanticScore)
      = (hybridSemanticResults log sqrt docs query topK).map Prod.snd := by
    rw [hM0, List.map_map]
    rw [show ((fun q : DocKey × MergedEntry => q.2.semanticScore) ∘ fun p : ℕ × (Doc × ℚ) =>
        (docKey p.2.1 p.1, (⟨p.2.1, p.2.2, 0⟩ : MergedEntry))) = Prod.snd ∘ Prod.snd from rfl,
      ← List.map_map, List.enum_map_snd]
  have hsem : (hybridMerged log sqrt docs query topK).map (fun p => p.2.semanticScore)
      = (hybridSemanticResults log sqrt docs query topK).map Prod.snd
        ++ ext.map fun _ => (0 : ℚ) := by
    have h1 := congrArg (List.map fun t : DocKey × Doc × ℚ => t.2.2) hext
    rw [List.map_append, List.map_map, List.map_map, List.map_map] at h1
    rw [show ((fun t : DocKey × Doc × ℚ => t.2.2) ∘ fun q : DocKey × MergedEntry =>
        (q.1, q.2.document, q.2.semanticScore))
        = fun q : DocKey × MergedEntry => q.2.semanticScore from rfl,
      show ((fun t : DocKey × Doc × ℚ => t.2.2) ∘ fun q : DocKey × Doc =>
        (q.1, q.2, (0 : ℚ))) = fun _ : DocKey × Doc => (0 : ℚ) from rfl, h2sem] at h1
    exact h1
  -- the document projection of the merged table
  have h2doc : (mergeSemantic (hybridSemanticResults log sqrt docs query topK)).map
      (fun q => q.2.document)
      = (hybridSemanticResults log sqrt docs query topK).map Prod.fst := by
    rw [hM0, List.map_map]
    rw [show ((fun q : DocKey × MergedEntry => q.2.document) ∘ fun p : ℕ × (Doc × ℚ) =>
        (docKey p.2.1 p.1, (⟨p.2.1, p.2.2, 0⟩ : MergedEntry))) = Prod.fst ∘ Prod.snd from rfl,
      ← List.map_map, List.enum_map_snd]
  have hdoc : (hybridMerged log sqrt docs query topK).map (fun p => p.2.document)
      = (hybridSemanticResults log sqrt docs query topK).map Prod.fst
        ++ ext.map Prod.snd := by
    have h1 := congrArg (List.map fun t : DocKey × Doc × ℚ => t.2.1) hext
    rw [List.map_append, List.map_map, List.map_map, List.map_map] at h1
    rw [show ((fun t : DocKey × Doc × ℚ => t.2.1) ∘ fun q : DocKey × MergedEntry =>
        (q.1, q.2.document, q.2.semanticScore))
        = fun q : DocKey × MergedEntry => q.2.document from rfl,
      show ((fun t : DocKey × Doc × ℚ => t.2.1) ∘ fun q : DocKey × Doc =>
        (q.1, q.2, (0 : ℚ))) = (Prod.snd : DocKey × Doc → Doc) from rfl, h2doc] at h1
    exact h1
  -- the already-sorted semantic block
  have hP2 : ((hybridSemanticResults log sqrt docs query topK).map Prod.snd).Pairwise
      (fun a b : ℚ => round4 b ≤ round4 a) := by
    have hpw0 : List.Pairwise (fun a b : ℚ × ℕ => b.1 ≤ a.1)
        ((sortDesc (fun s : ℚ × ℕ => s.1) ((corpusVectors log sqrt docs).enum.map
          fun s => (dot ((corpusEmbedder log docs).encodeOne sqrt query) s.2, s.1))).take
          (topK * 2)) :=
      List.Pairwise.sublist (List.take_sublist _ _) (pairwise_sortDesc _ _)
    have hres : (hybridSemanticResults log sqrt docs query topK).map Prod.snd
        = ((sortDesc (fun s : ℚ × ℕ => s.1) ((corpusVectors log sqrt docs).enum.map
            fun s => (dot ((corpusEmbedder log docs).encodeOne sqrt query) s.2, s.1))).take
          (topK * 2)).map fun s => round4 s.1 := by
      rw [show hybridSemanticResults log sqrt docs query topK
          = ((sortDesc (fun s : ℚ × ℕ => s.1) ((corpusVectors log sqrt docs).enum.map
              fun s => (dot ((corpusEmbedder log docs).encodeOne sqrt query) s.2, s.1))).take
            (topK * 2)).map
            (fun p => (docs.getD p.2 defaultDoc, round4 p.1)) from rfl, List.map_map]
      rfl
    rw [hres, List.pairwise_map]
    exact hpw0.imp fun h => round4_mono (round4_mono h)
  have hz : ∀ L : List (DocKey × Doc), (L.map fun _ => (0 : ℚ)).Pairwise
      (fun a b : ℚ => round4 b ≤ round4 a) := by
    intro L
    induction L with
    | nil => exact List.Pairwise.nil
    | cons a L ih =>
      rw [List.map_cons, List.pairwise_cons]
      refine ⟨?_, ih⟩
      intro y hy
      obtain ⟨q, hq, rfl⟩ := List.mem_map.mp hy
      exact le_refl _
  -- the fused list is already sorted descending by the w = 1 key
  have hpw : List.Pairwise (fun a b : SearchResult => b.relevanceScore ≤ a.relevanceScore)
      ((hybridMerged log sqrt docs query topK).map fun p => fuseEntry 1 p.2) := by
    rw [List.pairwise_map]
    have key0 : ((hybridMerged log sqrt docs query topK).map
        fun p : DocKey × MergedEntry => p.2.semanticScore).Pairwise
        (fun a b : ℚ => round4 b ≤ round4 a) := by
      rw [hsem, List.pairwise_append]
      refine ⟨hP2, hz ext, ?_⟩
      intro a ha b hb
      obtain ⟨p, hp, rfl⟩ := List.mem_map.mp ha
      obtain ⟨q, hq, rfl⟩ := List.mem_map.mp hb
      exact round4_mono (hscore p hp)
    have key := List.pairwise_map.mp key0
    exact key.imp fun h => by rw [hfuse1, hfuse1]; exact h
  have hsort : sortDesc (fun r : SearchResult => r.relevanceScore)
      ((hybridMerged log sqrt docs query topK).map fun p => fuseEntry 1 p.2)
      = (hybridMerged log sqrt docs query topK).map fun p => fuseEntry 1 p.2 :=
    sortDesc_eq_self _ hpw
  -- assemble: the output documents are the merged documents truncated
  have hres1 : hybridResults log sqrt 1 docs query topK
      = ((hybridMerged log sqrt docs query topK).map fun p => fuseEntry 1 p.2).take topK := by
    rw [show hybridResults log sqrt 1 docs query topK
        = (sortDesc (fun r : SearchResult => r.relevanceScore)
            ((hybridMerged log sqrt docs query topK).map fun p => fuseEntry 1 p.2)).take topK
      from rfl, hsort]
  have hfd : (((hybridMerged log sqrt docs query topK).map fun p => fuseEntry 1 p.2).map
      fun r => r.document) = (hybridMerged log sqrt docs query topK).map
        fun p => p.2.document := by
    rw [List.map_map]
    rfl
  rw [hres1, List.map_take, hfd, hdoc]
  have hbr : (bruteForceSearch docs (corpusVectors log sqrt docs)
      ((corpusEmbedder log docs).encodeOne sqrt query) topK).map Prod.fst
      = ((sortDesc (fun s : ℚ × ℕ => s.1) ((corpusVectors log sqrt docs).enum.map
          fun s => (dot ((corpusEmbedder log docs).encodeOne sqrt query) s.2, s.1))).take
        topK).map fun s => docs.getD s.2 defaultDoc := by
    rw [show bruteForceSearch docs (corpusVectors log sqrt docs)
        ((corpusEmbedder log docs).encodeOne sqrt query) topK
        = ((sortDesc (fun s : ℚ × ℕ => s.1) ((corpusVectors log sqrt docs).enum.map
            fun s => (dot ((corpusEmbedder log docs).encodeOne sqrt query) s.2, s.1))).take
          topK).map (fun p => (docs.getD p.2 defaultDoc, round4 p.1)) from rfl, List.map_map]
    rfl
  have hRf : (hybridSemanticResults log sqrt docs query topK).map Prod.fst
      = ((sortDesc (fun s : ℚ × ℕ => s.1) ((corpusVectors log sqrt docs).enum.map
          fun s => (dot ((corpusEmbedder log docs).encodeOne sqrt query) s.2, s.1))).take
        (topK * 2)).map fun s => docs.getD s.2 defaultDoc := by
    rw [show hybridSemanticResults log sqrt docs query topK
        = ((sortDesc (fun s : ℚ × ℕ => s.1) ((corpusVectors log sqrt docs).enum.map
            fun s => (dot ((corpusEmbedder log docs).encodeOne sqrt query) s.2, s.1))).take
          (topK * 2)).map (fun p => (docs.getD p.2 defaultDoc, round4 p.1)) from rfl,
      List.map_map]
    rfl
  have hreslen : (hybridSemanticResults log sqrt docs query topK).length
      = min (topK * 2) docs.length := length_hybridSemanticResults log sqrt docs query topK
  have hsortedlen : (sortDesc (fun s : ℚ × ℕ => s.1) ((corpusVectors log sqrt docs).enum.map
      fun s => (dot ((corpusEmbedder log docs).encodeOne sqrt query) s.2, s.1))).length
      = docs.length := by
    rw [length_sortDesc, List.length_map, List.enum_length, corpusVectors_length]
  rcases Nat.le_total topK (hybridSemanticResults log sqrt docs query topK).length
    with hcase | hcase
  · -- enough semantic candidates: the truncation never reaches the keyword tail
    have hlen1 : topK ≤ ((hybridSemanticResults log sqrt docs query topK).map
        Prod.fst).length := by
      rwa [List.length_map]
    rw [List.take_append_of_le_length hlen1, hRf, ← List.map_take, List.take_take,
      min_eq_left (by omega : topK ≤ topK * 2), hbr]
  · -- the whole corpus is fetched (or nothing is): the keyword tail is
    -- empty and both sides are the full ranking
    rcases Nat.eq_zero_or_pos topK with h0 | h0
    · simp [h0, bruteForceSearch]
    have hN : docs.length ≤ topK * 2 := by
      rcases Nat.le_total docs.length (topK * 2) with h | h
      · exact h
      · rw [hreslen, min_eq_left h] at hcase
        omega
    have hNlt : docs.length ≤ topK := by
      rw [hreslen, min_eq_right hN] at hcase
      exact hcase
    have hcov := kwKeys_covered log sqrt docs query topK hid hN
    have hkeys := keys_mergeKeyword_of_covered docs
      (hybridKeywordScores log docs query)
      (mergeSemantic (hybridSemanticResults log sqrt docs query topK)) hcov
    have hlenM : (hybridMerged log sqrt docs query topK).length
        = (mergeSemantic (hybridSemanticResults log sqrt docs query topK)).length := by
      have h1 := congrArg List.length hkeys
      rw [List.length_map, List.length_map] at h1
      exact h1
    have hlenext : (hybridMerged log sqrt docs query topK).length
        = (mergeSemantic (hybridSemanticResults log sqrt docs query topK)).length
          + ext.length := by
      have h1 := congrArg List.length hext
      rw [List.length_map, List.length_append, List.length_map, List.length_map] at h1
      exact h1
    have hext0 : ext = [] := by
      have h0 : ext.length = 0 := by omega
      exact List.length_eq_zero.mp h0
    have hfull2k : (sortDesc (fun s : ℚ × ℕ => s.1) ((corpusVectors log sqrt docs).enum.map
        fun s => (dot ((corpusEmbedder log docs).encodeOne sqrt query) s.2, s.1))).take
          (topK * 2)
        = sortDesc (fun s : ℚ × ℕ => s.1) ((corpusVectors log sqrt docs).enum.map
            fun s => (dot ((corpusEmbedder log docs).encodeOne sqrt query) s.2, s.1)) :=
      List.take_of_length_le (by rw [hsortedlen]; exact hN)
    have hfullk : (sortDesc (fun s : ℚ × ℕ => s.1) ((corpusVectors log sqrt docs).enum.map
        fun s => (dot ((corpusEmbedder log docs).encodeOne sqrt query) s.2, s.1))).take topK
        = sortDesc (fun s : ℚ × ℕ => s.1) ((corpusVectors log sqrt docs).enum.map
            fun s => (dot ((corpusEmbedder log docs).encodeOne sqrt query) s.2, s.1)) :=
      List.take_of_length_le (by rw [hsortedlen]; exact hNlt)
    rw [hext0, List.map_nil, List.append_nil, hRf, hbr, hfull2k, hfullk]
    exact List.take_of_length_le (by rw [List.length_map, hsortedlen]; exact hNlt)

/-- C4 (witness): the amended `w = 1` equivalence instantiated on the
one-document corpus `"a"` with query `"a"` and `top_k = 1`, with `log`/`sqrt`
stand-ins satisfying the nonnegativity hypotheses. -/
theorem c4_amended_witness :
    (∀ x : ℚ, 1 ≤ x → 0 ≤ zeroLog x)
    ∧ (∀ x : ℚ, 0 ≤ x → 0 ≤ oneSqrt x)
    ∧ idDiscipline [(⟨none, "a"⟩ : Doc)]
    ∧ (hybridResults zeroLog oneSqrt 1 [⟨none, "a"⟩] "a" 1).map (fun r => r.document)
      = (bruteForceSearch [⟨none, "a"⟩] (corpusVectors zeroLog oneSqrt [⟨none, "a"⟩])
          ((corpusEmbedder zeroLog [⟨none, "a"⟩]).encodeOne oneSqrt "a") 1).map Prod.fst :=
  ⟨fun _ _ => le_refl 0, fun _ _ => zero_le_one, Or.inl (by decide),
   c4_amended zeroLog oneSqrt [⟨none, "a"⟩] "a" 1
     (fun _ _ => le_refl 0) (fun _ _ => zero_le_one) (Or.inl (by decide))⟩

end Rag
